import Mathlib

/-!
Verification development for the rust_engine chess engine.

This file gives a shallow embedding, in Lean, of the parts of the engine
relevant to the checked claims: the bitboard primitives (src/bitboard.rs),
the position representation (src/state/position.rs), castle rights
(src/state/castle_rights.rs), Zobrist hashing of castle rights
(src/state/zobrist.rs), FEN parsing (src/fen.rs), and the alpha-beta
search (src/search.rs).  Machine integers (u64 bitboards, u8 castle-rights
bytes) are modelled as Nat with explicit bit operations; fallible code is
modelled with explicit result types; the search, whose Rust form mutates a
Game plus a transposition table and killer table in place, is modelled as
a fuel-indexed interpreter over an explicit engine interface, with the
table states threaded through.  Repository modules that are not part of
the provided sources (game.rs, mv.rs, tt.rs, killer_mv_table.rs,
piece_type.rs, square.rs) are modelled from the specification where a
claim needs them; each such definition carries a doc comment saying so.
-/

namespace RustEngine

/-! ## Bit primitives (src/bitboard.rs)

The Rust code works on u64 bitboards.  We model a u64 value as a Nat
below 2^64.  The recursive helpers take an explicit fuel argument of 64,
which is exact for every value below 2^64 (a u64 has 64 bits), so that
they compute by kernel reduction. -/

/-- Fuel-indexed bit counter; `popcountAux 64 x` is `u64::count_ones` for
any `x < 2^64`. -/
def popcountAux : Nat → Nat → Nat
  | 0, _ => 0
  | f + 1, n => if n = 0 then 0 else n % 2 + popcountAux f (n / 2)

/-- Model of `u64::count_ones` (used by `BB::count_ones`). -/
def count_ones (n : Nat) : Nat := popcountAux 64 n

/-- Fuel-indexed trailing-zero counter; on 0 it returns 64, as
`u64::trailing_zeros` does. -/
def tzAux : Nat → Nat → Nat
  | 0, _ => 64
  | f + 1, n => if n = 0 then 64 else if n % 2 = 1 then 0 else tzAux f (n / 2) + 1

/-- Model of `u64::trailing_zeros`, i.e. `BB::bitscan` and `BB::to_usize`. -/
def bitscan (n : Nat) : Nat := tzAux 64 n

/-- Model of `BB::lsb`: `self.0 & 0u64.wrapping_sub(self.0)`.  For
`0 < n < 2^64` the wrapping negation is `2^64 - n`; for `n = 0` both the
Rust expression and this one give 0. -/
def lsb64 (n : Nat) : Nat := n &&& (2 ^ 64 - n)

/-- Model of `BB::new`: `1u64 << sq`. -/
def bbNew (sq : Nat) : Nat := 1 <<< sq

theorem bbNew_eq_pow (sq : Nat) : bbNew sq = 2 ^ sq := by
  simp [bbNew, Nat.shiftLeft_eq]

/-! ### Arithmetic facts about the bit primitives -/

theorem or_eq_zero {a b : Nat} (h : a ||| b = 0) : a = 0 ∧ b = 0 := by
  constructor
  · apply Nat.eq_of_testBit_eq
    intro i
    have := congrArg (fun n => Nat.testBit n i) h
    simp at this
    simp [this.1]
  · apply Nat.eq_of_testBit_eq
    intro i
    have := congrArg (fun n => Nat.testBit n i) h
    simp at this
    simp [this.2]

theorem popcountAux_zero (f : Nat) : popcountAux f 0 = 0 := by
  cases f <;> simp [popcountAux]

theorem half_lt_pow {f n : Nat} (hn : n < 2 ^ (f + 1)) : n / 2 < 2 ^ f := by
  have : 2 ^ (f + 1) = 2 ^ f * 2 := by ring
  omega

theorem popcountAux_eq_zero_iff :
    ∀ f n, n < 2 ^ f → (popcountAux f n = 0 ↔ n = 0) := by
  intro f
  induction f with
  | zero => intro n hn; interval_cases n; simp [popcountAux]
  | succ f ih =>
    intro n hn
    by_cases h0 : n = 0
    · simp [h0, popcountAux_zero]
    · have := ih (n / 2) (half_lt_pow hn)
      simp only [popcountAux, h0, if_false]
      constructor
      · intro h
        have hq : popcountAux f (n / 2) = 0 := by omega
        have := this.mp hq
        omega
      · intro h; exact h.elim

theorem mod_two_or_of_and_zero {a b : Nat} (hab : a &&& b = 0) :
    (a ||| b) % 2 = a % 2 + b % 2 := by
  have hand : (a &&& b) % 2 = 0 := by rw [hab]
  rcases Nat.mod_two_eq_zero_or_one a with ha | ha <;>
    rcases Nat.mod_two_eq_zero_or_one b with hb | hb
  · have : ¬ (a ||| b) % 2 = 1 := by simp [Nat.or_mod_two_eq_one, ha, hb]
    omega
  · have : (a ||| b) % 2 = 1 := by simp [Nat.or_mod_two_eq_one, ha, hb]
    omega
  · have : (a ||| b) % 2 = 1 := by simp [Nat.or_mod_two_eq_one, ha, hb]
    omega
  · exfalso
    have : (a &&& b) % 2 = 1 := by simp [Nat.and_mod_two_eq_one, ha, hb]
    omega

theorem popcountAux_or :
    ∀ f a b, a < 2 ^ f → b < 2 ^ f → a &&& b = 0 →
      popcountAux f (a ||| b) = popcountAux f a + popcountAux f b := by
  intro f
  induction f with
  | zero =>
    intro a b ha hb _
    interval_cases a <;> interval_cases b <;> simp [popcountAux]
  | succ f ih =>
    intro a b ha hb hab
    by_cases ha0 : a = 0
    · simp [ha0, popcountAux_zero]
    by_cases hb0 : b = 0
    · simp [hb0, popcountAux_zero]
    have hor0 : a ||| b ≠ 0 := fun h => ha0 (or_eq_zero h).1
    have hdiv : a / 2 &&& b / 2 = 0 := by
      rw [← Nat.and_div_two, hab]
    have := ih (a / 2) (b / 2) (half_lt_pow ha) (half_lt_pow hb) hdiv
    simp only [popcountAux, hor0, if_false, ha0, hb0, Nat.or_div_two]
    rw [this, mod_two_or_of_and_zero hab]
    omega

theorem popcountAux_pow :
    ∀ f k, k < f → popcountAux f (2 ^ k) = 1 := by
  intro f
  induction f with
  | zero => intro k hk; omega
  | succ f ih =>
    intro k hk
    cases k with
    | zero => simp [popcountAux, popcountAux_zero]
    | succ k =>
      have hne : 2 ^ (k + 1) ≠ 0 := (Nat.pow_pos (by omega : (0 : Nat) < 2)).ne'
      have hmod : 2 ^ (k + 1) % 2 = 0 := by
        have : 2 ^ (k + 1) = 2 ^ k * 2 := by ring
        omega
      have hdivk : 2 ^ (k + 1) / 2 = 2 ^ k := by
        have : 2 ^ (k + 1) = 2 ^ k * 2 := by ring
        omega
      simp only [popcountAux, hne, if_false, hmod, hdivk]
      rw [ih k (by omega)]

theorem popcountAux_eq_one :
    ∀ f x, x < 2 ^ f → popcountAux f x = 1 → ∃ k, x = 2 ^ k := by
  intro f
  induction f with
  | zero => intro x hx; interval_cases x; simp [popcountAux]
  | succ f ih =>
    intro x hx hpc
    by_cases h0 : x = 0
    · rw [h0, popcountAux_zero] at hpc; omega
    simp only [popcountAux, h0, if_false] at hpc
    rcases Nat.mod_two_eq_zero_or_one x with hm | hm
    · obtain ⟨k, hk⟩ := ih (x / 2) (half_lt_pow hx) (by omega)
      refine ⟨k + 1, ?_⟩
      have : x = 2 * (x / 2) := by omega
      rw [this, hk]; ring
    · have h2 : popcountAux f (x / 2) = 0 := by omega
      have := (popcountAux_eq_zero_iff f (x / 2) (half_lt_pow hx)).mp h2
      refine ⟨0, ?_⟩
      omega

theorem popcountAux_eq_two :
    ∀ f x, x < 2 ^ f → popcountAux f x = 2 →
      ∃ i j, i < j ∧ x = 2 ^ i + 2 ^ j := by
  intro f
  induction f with
  | zero => intro x hx; interval_cases x; simp [popcountAux]
  | succ f ih =>
    intro x hx hpc
    by_cases h0 : x = 0
    · rw [h0, popcountAux_zero] at hpc; omega
    simp only [popcountAux, h0, if_false] at hpc
    rcases Nat.mod_two_eq_zero_or_one x with hm | hm
    · obtain ⟨i, j, hij, hx2⟩ := ih (x / 2) (half_lt_pow hx) (by omega)
      refine ⟨i + 1, j + 1, by omega, ?_⟩
      have : x = 2 * (x / 2) := by omega
      rw [this, hx2]; ring
    · have h1 : popcountAux f (x / 2) = 1 := by omega
      obtain ⟨k, hk⟩ := popcountAux_eq_one f (x / 2) (half_lt_pow hx) h1
      refine ⟨0, k + 1, by omega, ?_⟩
      have : x = 2 * (x / 2) + 1 := by omega
      rw [this, hk]
      simp [Nat.pow_succ]
      ring

theorem tzAux_pow :
    ∀ f k, k < f → tzAux f (2 ^ k) = k := by
  intro f
  induction f with
  | zero => intro k hk; omega
  | succ f ih =>
    intro k hk
    cases k with
    | zero => simp [tzAux]
    | succ k =>
      have hne : 2 ^ (k + 1) ≠ 0 := (Nat.pow_pos (by omega : (0 : Nat) < 2)).ne'
      have hmod : 2 ^ (k + 1) % 2 = 0 := by
        have : 2 ^ (k + 1) = 2 ^ k * 2 := by ring
        omega
      have hdivk : 2 ^ (k + 1) / 2 = 2 ^ k := by
        have : 2 ^ (k + 1) = 2 ^ k * 2 := by ring
        omega
      simp only [tzAux, hne, if_false, hmod]
      rw [if_neg (by omega), hdivk, ih k (by omega)]

theorem tzAux_two_pow_add :
    ∀ i f j, i < j → i < f → tzAux f (2 ^ i + 2 ^ j) = i := by
  intro i
  induction i with
  | zero =>
    intro f j hij hf
    obtain ⟨f, rfl⟩ : ∃ g, f = g + 1 := ⟨f - 1, by omega⟩
    have hne : 2 ^ 0 + 2 ^ j ≠ 0 := by positivity
    have hmod : (2 ^ 0 + 2 ^ j) % 2 = 1 := by
      obtain ⟨j, rfl⟩ : ∃ k, j = k + 1 := ⟨j - 1, by omega⟩
      have : 2 ^ (j + 1) = 2 ^ j * 2 := by ring
      omega
    simp only [tzAux, hne, if_false, hmod, if_true]
  | succ i ih =>
    intro f j hij hf
    obtain ⟨f, rfl⟩ : ∃ g, f = g + 1 := ⟨f - 1, by omega⟩
    obtain ⟨j, rfl⟩ : ∃ k, j = k + 1 := ⟨j - 1, by omega⟩
    have hne : 2 ^ (i + 1) + 2 ^ (j + 1) ≠ 0 := by positivity
    have h2i : 2 ^ (i + 1) = 2 ^ i * 2 := by ring
    have h2j : 2 ^ (j + 1) = 2 ^ j * 2 := by ring
    have hmod : (2 ^ (i + 1) + 2 ^ (j + 1)) % 2 = 0 := by omega
    have hdiv : (2 ^ (i + 1) + 2 ^ (j + 1)) / 2 = 2 ^ i + 2 ^ j := by omega
    simp only [tzAux, hne, if_false, hmod]
    rw [if_neg (by omega), hdiv, ih f j (by omega) (by omega)]

theorem two_pow_add_eq_or {i j : Nat} (hij : i < j) :
    2 ^ i + 2 ^ j = 2 ^ j ||| 2 ^ i := by
  have hb : 2 ^ i < 2 ^ j := Nat.pow_lt_pow_right (by omega) hij
  have := Nat.mul_add_lt_is_or (b := 2 ^ i) (i := j) hb 1
  simpa [Nat.add_comm] using this

theorem testBit_two_pow_add {i j m : Nat} (hij : i < j) :
    (2 ^ i + 2 ^ j).testBit m = (decide (m = i) || decide (m = j)) := by
  rw [two_pow_add_eq_or hij, Nat.testBit_or, Nat.testBit_two_pow, Nat.testBit_two_pow]
  rcases eq_or_ne m i with rfl | h1
  · simp
  · rcases eq_or_ne m j with rfl | h2
    · simp
    · simp [h1, h2, Ne.symm h1, Ne.symm h2]

theorem two_pow_add_lt {i j f : Nat} (hij : i < j) (hj : j < f) :
    2 ^ i + 2 ^ j < 2 ^ f := by
  have h1 : 2 ^ i < 2 ^ j := Nat.pow_lt_pow_right (by omega) hij
  have h2 : 2 ^ (j + 1) ≤ 2 ^ f := Nat.pow_le_pow_right (by omega) (by omega)
  have : 2 ^ (j + 1) = 2 ^ j * 2 := by ring
  omega

/-- Bits of `2^i + 2^j - 1` for `i < j`: bit `j` plus all bits below `i`. -/
theorem testBit_two_pow_add_pred {i j m : Nat} (hij : i < j) :
    (2 ^ i + 2 ^ j - 1).testBit m =
      (decide (m = j) || decide (m < i)) := by
  have hb : 2 ^ i - 1 < 2 ^ j := by
    have : 2 ^ i < 2 ^ j := Nat.pow_lt_pow_right (by omega) hij
    have : 0 < 2 ^ i := Nat.pow_pos (by omega)
    omega
  have hrw : 2 ^ i + 2 ^ j - 1 = 2 ^ j * 1 + (2 ^ i - 1) := by
    have : 0 < 2 ^ i := Nat.pow_pos (by omega)
    omega
  rw [hrw, Nat.testBit_mul_pow_two_add 1 hb m]
  by_cases hm : m < j
  · simp [hm, Nat.testBit_two_pow_sub_one]
    omega
  · have hmi : ¬ m < i := by omega
    have hmj : m ≠ j ∨ m = j := by omega
    simp only [hm, if_false]
    rcases eq_or_ne m j with rfl | hne
    · simp
    · have : m - j ≠ 0 := by omega
      obtain ⟨k, hk⟩ : ∃ k, m - j = k + 1 := ⟨m - j - 1, by omega⟩
      rw [hk]
      simp [Nat.testBit_succ]
      omega

/-- The `lsb` of a two-bit value is its low bit. -/
theorem lsb64_two_pow_add {i j : Nat} (hij : i < j) (hj : j < 64) :
    lsb64 (2 ^ i + 2 ^ j) = 2 ^ i := by
  set x := 2 ^ i + 2 ^ j with hx
  have hxpos : 0 < x := by positivity
  have hxlt : x < 2 ^ 64 := two_pow_add_lt hij hj
  have hpred : x - 1 < 2 ^ 64 := by omega
  apply Nat.eq_of_testBit_eq
  intro m
  have hsub : (2 ^ 64 - x).testBit m = (decide (m < 64) && ! (x - 1).testBit m) := by
    have : 2 ^ 64 - x = 2 ^ 64 - ((x - 1) + 1) := by omega
    rw [this, Nat.testBit_two_pow_sub_succ hpred]
  rw [lsb64, Nat.testBit_and, hsub, hx, testBit_two_pow_add hij,
    testBit_two_pow_add_pred hij, Nat.testBit_two_pow]
  rcases eq_or_ne m i with rfl | hmi <;> rcases eq_or_ne m j with rfl | hmj
  · omega
  · simp [hmj]
    omega
  · simp [hmi, Nat.ne_of_gt hij]
    omega
  · simp [hmi, hmj]
    omega

theorem xor_two_pow_add {i j : Nat} (hij : i < j) :
    (2 ^ i + 2 ^ j) ^^^ 2 ^ i = 2 ^ j := by
  apply Nat.eq_of_testBit_eq
  intro m
  rw [Nat.testBit_xor, testBit_two_pow_add hij, Nat.testBit_two_pow, Nat.testBit_two_pow]
  rcases eq_or_ne m i with rfl | h1
  · simp [Nat.ne_of_lt hij]
    omega
  · rcases eq_or_ne m j with rfl | h2
    · simp [h1, Ne.symm h1]
    · simp [h1, h2, Ne.symm h1, Ne.symm h2]

/-! ## Basic chess types (src/side.rs, src/piece_type.rs, src/piece.rs,
src/mv/castle.rs; these modules are not among the provided sources, but
their content is fixed by the spec: Side is White or Black, a piece type
is one of the six chessmen in the order pawn, knight, bishop, rook, queen,
king, and a Piece is a (side, piece-type) pair). -/

inductive Side where
  | white
  | black
deriving DecidableEq, Repr

/-- Model of `Side::opposite`. -/
def Side.opposite : Side → Side
  | .white => .black
  | .black => .white

instance : Fintype Side :=
  ⟨⟨{Side.white, Side.black}, by decide⟩, fun s => by cases s <;> decide⟩

inductive PieceType where
  | pawn
  | knight
  | bishop
  | rook
  | queen
  | king
deriving DecidableEq, Repr

instance : Fintype PieceType :=
  ⟨⟨{PieceType.pawn, PieceType.knight, PieceType.bishop, PieceType.rook,
      PieceType.queen, PieceType.king}, by decide⟩, fun t => by cases t <;> decide⟩

/-- Modelled from the spec: piece_type.rs is not under src/; the material
values are standard centipawn values.  Every theorem below that involves
the material score holds for any fixed value table. -/
def PieceType.score : PieceType → Nat
  | .pawn => 100
  | .knight => 300
  | .bishop => 300
  | .rook => 500
  | .queen => 900
  | .king => 0

structure Piece where
  side : Side
  pieceType : PieceType
deriving DecidableEq, Repr

instance : Fintype Piece :=
  ⟨⟨(Finset.univ ×ˢ Finset.univ).val.map (fun p : Side × PieceType => ⟨p.1, p.2⟩),
      by decide⟩, fun pc => by cases pc with | mk s t => cases s <;> cases t <;> decide⟩

/-- Model of `Piece::new`. -/
def Piece.new (side : Side) (pieceType : PieceType) : Piece := ⟨side, pieceType⟩

inductive Castle where
  | kingside
  | queenside
deriving DecidableEq, Repr

/-! ## Position (src/state/position.rs)

The Rust struct holds `bb_sides: [BB; 2]`, `bb_pieces: [BB; 6]`,
`board: [Option<Piece>; 64]` and `score: [u32; 2]`, the arrays being
indexed through `Side::to_usize` and `PieceType::to_usize`; we model the
arrays as functions from the corresponding inductive types, and the board
as a function from square numbers (only indices below 64 are ever used).
The u32 score is modelled as Nat; under the material invariant every
subtraction in `remove_piece` is exact and all sums stay far below 2^32,
so Nat faithfully models the u32 arithmetic on the states the claims
quantify over. -/

structure Position where
  bb_sides : Side → Nat
  bb_pieces : PieceType → Nat
  board : Nat → Option Piece
  score : Side → Nat

/-- Model of `Position::bb_occupied`. -/
def Position.bb_occupied (p : Position) : Nat :=
  p.bb_sides Side.white ||| p.bb_sides Side.black

/-- Model of `Position::bb_pc`. -/
def Position.bb_pc (p : Position) (piece_type : PieceType) (side : Side) : Nat :=
  p.bb_pieces piece_type &&& p.bb_sides side

/-- Model of `Position::at`. -/
def Position.at_sq (p : Position) (sq : Nat) : Option Piece := p.board sq

/-- Model of `Position::remove_piece`. -/
def Position.remove_piece (p : Position) (piece_type : PieceType) (from_sq : Nat)
    (side : Side) : Position :=
  let from_bb := bbNew from_sq
  { bb_pieces := fun t => if t = piece_type then p.bb_pieces t ^^^ from_bb else p.bb_pieces t
    bb_sides := fun s => if s = side then p.bb_sides s ^^^ from_bb else p.bb_sides s
    board := fun sq => if sq = from_sq then none else p.board sq
    score := fun s => if s = side then p.score s - piece_type.score else p.score s }

/-- Model of `Position::place_piece`. -/
def Position.place_piece (p : Position) (piece_type : PieceType) (to_sq : Nat)
    (side : Side) : Position :=
  let to_bb := bbNew to_sq
  { bb_pieces := fun t => if t = piece_type then p.bb_pieces t ||| to_bb else p.bb_pieces t
    bb_sides := fun s => if s = side then p.bb_sides s ||| to_bb else p.bb_sides s
    board := fun sq => if sq = to_sq then some (Piece.new side piece_type) else p.board sq
    score := fun s => if s = side then p.score s + piece_type.score else p.score s }

/-- Model of `Position::move_piece`: remove at the origin, place at the
destination. -/
def Position.move_piece (p : Position) (piece_type : PieceType) (from_sq to_sq : Nat)
    (side : Side) : Position :=
  (p.remove_piece piece_type from_sq side).place_piece piece_type to_sq side

/-- Modelled from the spec: `Square::is_light_sq` lives in square.rs,
which is not under src/.  With square numbering `sq = 8*rank + file`
(spec section 3, square 0 = a1), a square is light exactly when rank
plus file is odd. -/
def isLightSq (sq : Nat) : Bool := decide ((sq / 8 + sq % 8) % 2 = 1)

/-- Model of `Position::insufficient_material`. -/
def Position.insufficient_material (p : Position) : Bool :=
  if p.bb_pieces PieceType.pawn ≠ 0 then false
  else if (p.bb_pieces PieceType.rook ||| p.bb_pieces PieceType.queen) ≠ 0 then false
  else
    let pieces_left_count := count_ones p.bb_occupied
    if pieces_left_count < 4 then true
    else
      let bishops_bb := p.bb_pieces PieceType.bishop
      if pieces_left_count = 4 ∧ count_ones bishops_bb = 2 ∧
          count_ones (p.bb_pc PieceType.bishop Side.white) = 1 then
        let first_bishop_is_light := isLightSq (bitscan bishops_bb)
        let second_bishop_bb := bishops_bb ^^^ lsb64 bishops_bb
        let second_bishop_is_light := isLightSq (bitscan second_bishop_bb)
        first_bishop_is_light == second_bishop_is_light
      else false

/-! ### Position invariants (spec section 3) -/

/-- Union of the six per-piece-type bitboards. -/
def unionPieces (p : Position) : Nat :=
  p.bb_pieces PieceType.pawn ||| p.bb_pieces PieceType.knight |||
    p.bb_pieces PieceType.bishop ||| p.bb_pieces PieceType.rook |||
    p.bb_pieces PieceType.queen ||| p.bb_pieces PieceType.king

/-- Sum over the board squares below `n` of the material value of the
pieces of side `s`. -/
def materialAux (board : Nat → Option Piece) (s : Side) : Nat → Nat
  | 0 => 0
  | n + 1 =>
    materialAux board s n +
      (match board n with
       | some pc => if pc.side = s then pc.pieceType.score else 0
       | none => 0)

/-- Per-side material: the sum of the material values of the side's
pieces listed by the mailbox. -/
def material (p : Position) (s : Side) : Nat := materialAux p.board s 64

/-- The Position invariants of spec section 3 that the claims name: the
side bitboards are disjoint (and in u64 range), the union of the piece
bitboards is the union of the side bitboards, the mailbox agrees with the
bitboards on every square, and the incremental material score is the
mailbox material sum. -/
def PosInv (p : Position) : Prop :=
  (∀ s : Side, p.bb_sides s < 2 ^ 64) ∧
    p.bb_sides Side.white &&& p.bb_sides Side.black = 0 ∧
    unionPieces p = p.bb_occupied ∧
    (∀ sq, sq < 64 → ∀ pc : Piece,
      (p.board sq = some pc ↔ (p.bb_pc pc.pieceType pc.side).testBit sq = true)) ∧
    (∀ s : Side, p.score s = material p s)

/-- The remaining invariant: exactly one king per side. -/
def oneKingPerSide (p : Position) : Prop :=
  ∀ s : Side, count_ones (p.bb_pc PieceType.king s) = 1

/-- Written from the words of claim C6: the material configurations the
claim lists, expressed over the same bitboards the code reads.  The
same-complex condition says that every two squares holding a bishop have
the same colour complex. -/
def sameComplexBishops (bb : Nat) : Prop :=
  ∀ i, i < 64 → ∀ j, j < 64 →
    bb.testBit i = true → bb.testBit j = true → isLightSq i = isLightSq j

/-- Written from the words of claim C6: insufficient material holds
exactly for K vs K, K+B vs K, K+N vs K, and K+B vs K+B with both bishops
on the same colour complex; any pawn, rook or queen excludes it. -/
def insufficientMaterialSpec (p : Position) : Prop :=
  p.bb_pieces PieceType.pawn = 0 ∧
    p.bb_pieces PieceType.rook = 0 ∧
    p.bb_pieces PieceType.queen = 0 ∧
    ((count_ones (p.bb_pieces PieceType.bishop) = 0 ∧
        count_ones (p.bb_pieces PieceType.knight) = 0) ∨
      (count_ones (p.bb_pieces PieceType.bishop) = 1 ∧
        count_ones (p.bb_pieces PieceType.knight) = 0) ∨
      (count_ones (p.bb_pieces PieceType.knight) = 1 ∧
        count_ones (p.bb_pieces PieceType.bishop) = 0) ∨
      (count_ones (p.bb_pc PieceType.bishop Side.white) = 1 ∧
        count_ones (p.bb_pc PieceType.bishop Side.black) = 1 ∧
        count_ones (p.bb_pieces PieceType.knight) = 0 ∧
        sameComplexBishops (p.bb_pieces PieceType.bishop)))

/-! ### Facts about positions satisfying the invariants -/

theorem and_eq_zero_iff_testBit {a b : Nat} :
    a &&& b = 0 ↔ ∀ i, ¬(a.testBit i = true ∧ b.testBit i = true) := by
  constructor
  · intro h i ⟨ha, hb⟩
    have : (a &&& b).testBit i = true := by simp [Nat.testBit_and, ha, hb]
    rw [h] at this
    simp at this
  · intro h
    apply Nat.eq_of_testBit_eq
    intro i
    have := h i
    simp only [Nat.testBit_and, Nat.zero_testBit]
    cases ha : a.testBit i <;> cases hb : b.testBit i <;> simp_all

theorem pieces_subset_occupied {p : Position} (h : PosInv p) (t : PieceType) :
    p.bb_pieces t &&& p.bb_occupied = p.bb_pieces t := by
  obtain ⟨_, _, hun, _, _⟩ := h
  apply Nat.eq_of_testBit_eq
  intro i
  rw [Nat.testBit_and]
  by_cases hb : (p.bb_pieces t).testBit i
  · have h2 := congrArg (fun n => n.testBit i) hun
    simp only [unionPieces, Position.bb_occupied, Nat.testBit_or] at h2
    have hocc : p.bb_occupied.testBit i = true := by
      rw [Position.bb_occupied, Nat.testBit_or]
      cases t <;> simp_all
    simp [hb, hocc]
  · simp [hb]

theorem occupied_lt {p : Position} (h : PosInv p) : p.bb_occupied < 2 ^ 64 := by
  obtain ⟨hlt, _, _, _, _⟩ := h
  exact Nat.or_lt_two_pow (hlt Side.white) (hlt Side.black)

theorem pieces_le_occupied {p : Position} (h : PosInv p) (t : PieceType) :
    p.bb_pieces t ≤ p.bb_occupied := by
  conv_lhs => rw [← pieces_subset_occupied h t]
  exact Nat.and_le_right

theorem pieces_lt {p : Position} (h : PosInv p) (t : PieceType) :
    p.bb_pieces t < 2 ^ 64 :=
  Nat.lt_of_le_of_lt (pieces_le_occupied h t) (occupied_lt h)

theorem bb_pc_partition {p : Position} (h : PosInv p) (t : PieceType) :
    p.bb_pc t Side.white ||| p.bb_pc t Side.black = p.bb_pieces t := by
  rw [Position.bb_pc, Position.bb_pc, ← Nat.and_or_distrib_left]
  exact pieces_subset_occupied h t

theorem bb_pc_lt {p : Position} (h : PosInv p) (t : PieceType) (s : Side) :
    p.bb_pc t s < 2 ^ 64 := by
  obtain ⟨hlt, _, _, _, _⟩ := h
  exact Nat.lt_of_le_of_lt Nat.and_le_right (hlt s)

theorem bb_pc_disjoint {p : Position} (h : PosInv p) {t u : PieceType} {s r : Side}
    (hne : ¬(t = u ∧ s = r)) : p.bb_pc t s &&& p.bb_pc u r = 0 := by
  obtain ⟨hlt, hdisj, hun, hmb, _⟩ := h
  rw [and_eq_zero_iff_testBit]
  intro i ⟨h1, h2⟩
  by_cases hsr : s = r
  · subst hsr
    have htu : t ≠ u := fun h => hne ⟨h, rfl⟩
    have hi : i < 64 := by
      by_contra hge
      have : p.bb_sides s < 2 ^ 64 := hlt s
      have hbit : (p.bb_sides s).testBit i = true := by
        simp only [Position.bb_pc, Nat.testBit_and, Bool.and_eq_true] at h1
        exact h1.2
      have : (p.bb_sides s).testBit i = false :=
        Nat.testBit_lt_two_pow (Nat.lt_of_lt_of_le (hlt s)
          (Nat.pow_le_pow_right (by omega) (by omega)))
      simp_all
    have hb1 := (hmb i hi ⟨s, t⟩).mpr h1
    have hb2 := (hmb i hi ⟨s, u⟩).mpr h2
    rw [hb1] at hb2
    exact htu (congrArg (fun pc => Piece.pieceType pc)
      (Option.some.injEq _ _ ▸ hb2 : (⟨s, t⟩ : Piece) = ⟨s, u⟩))
  · have hw1 : (p.bb_sides s).testBit i = true := by
      simp only [Position.bb_pc, Nat.testBit_and, Bool.and_eq_true] at h1
      exact h1.2
    have hw2 : (p.bb_sides r).testBit i = true := by
      simp only [Position.bb_pc, Nat.testBit_and, Bool.and_eq_true] at h2
      exact h2.2
    have := and_eq_zero_iff_testBit.mp hdisj i
    cases s <;> cases r <;> simp_all

theorem pieces_disjoint {p : Position} (h : PosInv p) {t u : PieceType} (htu : t ≠ u) :
    p.bb_pieces t &&& p.bb_pieces u = 0 := by
  rw [← bb_pc_partition h t, ← bb_pc_partition h u]
  rw [Nat.and_distrib_right, Nat.and_or_distrib_left, Nat.and_or_distrib_left]
  rw [bb_pc_disjoint h (by simp [htu]), bb_pc_disjoint h (by simp [htu]),
    bb_pc_disjoint h (by simp [htu]), bb_pc_disjoint h (by simp [htu])]
  simp

theorem count_bb_pc_split {p : Position} (h : PosInv p) (t : PieceType) :
    count_ones (p.bb_pieces t) =
      count_ones (p.bb_pc t Side.white) + count_ones (p.bb_pc t Side.black) := by
  rw [← bb_pc_partition h t]
  exact popcountAux_or 64 _ _ (bb_pc_lt h t Side.white) (bb_pc_lt h t Side.black)
    (bb_pc_disjoint h (by simp))

theorem occupied_count_no_prq {p : Position} (h : PosInv p) (hk : oneKingPerSide p)
    (hp : p.bb_pieces PieceType.pawn = 0) (hr : p.bb_pieces PieceType.rook = 0)
    (hq : p.bb_pieces PieceType.queen = 0) :
    count_ones p.bb_occupied =
      count_ones (p.bb_pieces PieceType.knight) +
        count_ones (p.bb_pieces PieceType.bishop) + 2 := by
  have hocc : p.bb_occupied =
      (p.bb_pieces PieceType.knight ||| p.bb_pieces PieceType.bishop) |||
        p.bb_pieces PieceType.king := by
    obtain ⟨_, _, hun, _, _⟩ := h
    rw [← hun, unionPieces, hp, hr, hq]
    simp
  have hnb_disj : p.bb_pieces PieceType.knight &&& p.bb_pieces PieceType.bishop = 0 :=
    pieces_disjoint h (by simp)
  have hnbk_disj :
      (p.bb_pieces PieceType.knight ||| p.bb_pieces PieceType.bishop) &&&
        p.bb_pieces PieceType.king = 0 := by
    rw [Nat.and_distrib_right, pieces_disjoint h (by simp : PieceType.knight ≠ PieceType.king),
      pieces_disjoint h (by simp : PieceType.bishop ≠ PieceType.king)]
    simp
  have hnb_lt : p.bb_pieces PieceType.knight ||| p.bb_pieces PieceType.bishop < 2 ^ 64 :=
    Nat.or_lt_two_pow (pieces_lt h _) (pieces_lt h _)
  have hkc : count_ones (p.bb_pieces PieceType.king) = 2 := by
    rw [count_bb_pc_split h PieceType.king, hk Side.white, hk Side.black]
  rw [hocc, count_ones, popcountAux_or 64 _ _ hnb_lt (pieces_lt h _) hnbk_disj,
    popcountAux_or 64 _ _ (pieces_lt h _) (pieces_lt h _) hnb_disj]
  rw [count_ones] at hkc
  rw [hkc]
  rfl

theorem bishops_two_bits {p : Position} (h : PosInv p)
    (hcb : count_ones (p.bb_pieces PieceType.bishop) = 2) :
    ∃ i j, i < j ∧ j < 64 ∧ p.bb_pieces PieceType.bishop = 2 ^ i + 2 ^ j := by
  obtain ⟨i, j, hij, heq⟩ :=
    popcountAux_eq_two 64 _ (pieces_lt h PieceType.bishop) hcb
  refine ⟨i, j, hij, ?_, heq⟩
  have hle : 2 ^ j ≤ p.bb_pieces PieceType.bishop := by
    rw [heq]; exact Nat.le_add_left _ _
  have := Nat.lt_of_le_of_lt hle (pieces_lt h PieceType.bishop)
  exact (Nat.pow_lt_pow_iff_right (by omega)).mp this

theorem sameComplex_two_bits {i j : Nat} (hij : i < j) (hj : j < 64) :
    sameComplexBishops (2 ^ i + 2 ^ j) ↔ isLightSq i = isLightSq j := by
  constructor
  · intro hsc
    refine hsc i (by omega) j (by omega) ?_ ?_
    · rw [testBit_two_pow_add hij]; simp
    · rw [testBit_two_pow_add hij]; simp
  · intro hlj a ha b hb hta htb
    rw [testBit_two_pow_add hij] at hta htb
    have ha2 : a = i ∨ a = j := by
      simp at hta
      tauto
    have hb2 : b = i ∨ b = j := by
      simp at htb
      tauto
    rcases ha2 with rfl | rfl <;> rcases hb2 with rfl | rfl <;> simp [hlj]

/-- Restatement of `Position::insufficient_material` with the let-bound
locals inlined, for case splitting. -/
theorem insufficient_material_cases (p : Position) :
    p.insufficient_material =
      if p.bb_pieces PieceType.pawn ≠ 0 then false
      else if (p.bb_pieces PieceType.rook ||| p.bb_pieces PieceType.queen) ≠ 0 then false
      else if count_ones p.bb_occupied < 4 then true
      else if count_ones p.bb_occupied = 4 ∧
          count_ones (p.bb_pieces PieceType.bishop) = 2 ∧
          count_ones (p.bb_pc PieceType.bishop Side.white) = 1 then
        isLightSq (bitscan (p.bb_pieces PieceType.bishop)) ==
          isLightSq (bitscan
            (p.bb_pieces PieceType.bishop ^^^ lsb64 (p.bb_pieces PieceType.bishop)))
      else false := rfl

/-- C6: for every Position satisfying the Position invariants together
with the one-king-per-side invariant, `insufficient_material` returns
true exactly for the material configurations K vs K, K+B vs K, K+N vs K,
and K+B vs K+B with both bishops on the same colour complex, and returns
false whenever any pawn, rook, or queen is on the board. -/
theorem c6_insufficient_material_exact (p : Position) (hinv : PosInv p)
    (hk : oneKingPerSide p) :
    (p.insufficient_material = true ↔ insufficientMaterialSpec p) ∧
    ((p.bb_pieces PieceType.pawn ≠ 0 ∨ p.bb_pieces PieceType.rook ≠ 0 ∨
        p.bb_pieces PieceType.queen ≠ 0) → p.insufficient_material = false) := by
  constructor
  · rw [insufficient_material_cases]
    unfold insufficientMaterialSpec
    split_ifs with h1 h2 h3 h4
    · simp only [Bool.false_eq_true, false_iff]
      intro hs
      exact h1 hs.1
    · simp only [Bool.false_eq_true, false_iff]
      intro hs
      exact h2 (by simp [hs.2.1, hs.2.2.1])
    · push_neg at h1 h2
      obtain ⟨hr0, hq0⟩ := or_eq_zero h2
      have hcnt := occupied_count_no_prq hinv hk h1 hr0 hq0
      refine ⟨fun _ => ⟨h1, hr0, hq0, ?_⟩, fun _ => rfl⟩
      have hcase : (count_ones (p.bb_pieces PieceType.bishop) = 0 ∧
            count_ones (p.bb_pieces PieceType.knight) = 0) ∨
          (count_ones (p.bb_pieces PieceType.bishop) = 1 ∧
            count_ones (p.bb_pieces PieceType.knight) = 0) ∨
          (count_ones (p.bb_pieces PieceType.knight) = 1 ∧
            count_ones (p.bb_pieces PieceType.bishop) = 0) := by omega
      rcases hcase with h | h | h
      · exact Or.inl h
      · exact Or.inr (Or.inl h)
      · exact Or.inr (Or.inr (Or.inl h))
    · push_neg at h1 h2
      obtain ⟨hr0, hq0⟩ := or_eq_zero h2
      obtain ⟨h4a, h4b, h4c⟩ := h4
      have hcnt := occupied_count_no_prq hinv hk h1 hr0 hq0
      have hn0 : count_ones (p.bb_pieces PieceType.knight) = 0 := by omega
      have hsplit := count_bb_pc_split hinv PieceType.bishop
      have hcbB : count_ones (p.bb_pc PieceType.bishop Side.black) = 1 := by omega
      obtain ⟨i, j, hij, hj64, heq⟩ := bishops_two_bits hinv h4b
      have hb1 : bitscan (p.bb_pieces PieceType.bishop) = i := by
        rw [heq]; exact tzAux_two_pow_add i 64 j hij (by omega)
      have hlsb : lsb64 (p.bb_pieces PieceType.bishop) = 2 ^ i := by
        rw [heq]; exact lsb64_two_pow_add hij hj64
      have hxor : p.bb_pieces PieceType.bishop ^^^ lsb64 (p.bb_pieces PieceType.bishop) =
          2 ^ j := by
        rw [hlsb, heq]; exact xor_two_pow_add hij
      have hb2 : bitscan (p.bb_pieces PieceType.bishop ^^^
          lsb64 (p.bb_pieces PieceType.bishop)) = j := by
        rw [hxor]; exact tzAux_pow 64 j hj64
      rw [hb1, hb2, beq_iff_eq]
      constructor
      · intro hl
        have hsc : sameComplexBishops (p.bb_pieces PieceType.bishop) := by
          rw [heq]; exact (sameComplex_two_bits hij hj64).mpr hl
        exact ⟨h1, hr0, hq0, Or.inr (Or.inr (Or.inr ⟨h4c, hcbB, hn0, hsc⟩))⟩
      · intro ⟨_, _, _, hd⟩
        rcases hd with ⟨hc1, _⟩ | ⟨hc1, _⟩ | ⟨_, hc1⟩ | ⟨_, _, _, hsc⟩
        · omega
        · omega
        · omega
        · rw [heq] at hsc
          exact (sameComplex_two_bits hij hj64).mp hsc
    · push_neg at h1 h2
      obtain ⟨hr0, hq0⟩ := or_eq_zero h2
      have hcnt := occupied_count_no_prq hinv hk h1 hr0 hq0
      simp only [Bool.false_eq_true, false_iff]
      intro ⟨_, _, _, hd⟩
      have hsplit := count_bb_pc_split hinv PieceType.bishop
      rcases hd with ⟨hc1, hc2⟩ | ⟨hc1, hc2⟩ | ⟨hc1, hc2⟩ | ⟨hw1, hbb1, hn0, _⟩
      · exact h3 (by omega)
      · exact h3 (by omega)
      · exact h3 (by omega)
      · exact h4 ⟨by omega, by omega, hw1⟩
  · intro hne
    rw [insufficient_material_cases]
    rcases hne with h | h | h
    · rw [if_pos h]
    · by_cases hp : p.bb_pieces PieceType.pawn ≠ 0
      · rw [if_pos hp]
      · rw [if_neg hp, if_pos (fun h0 => h (or_eq_zero h0).1)]
    · by_cases hp : p.bb_pieces PieceType.pawn ≠ 0
      · rw [if_pos hp]
      · rw [if_neg hp, if_pos (fun h0 => h (or_eq_zero h0).2)]

/-! ### Preservation of the invariants by place, remove and move (C7) -/

theorem testBit_bbNew_self (sq : Nat) : (bbNew sq).testBit sq = true := by
  rw [bbNew_eq_pow]; exact Nat.testBit_two_pow_self

theorem testBit_bbNew_ne {i sq : Nat} (h : i ≠ sq) : (bbNew sq).testBit i = false := by
  rw [bbNew_eq_pow]; exact Nat.testBit_two_pow_of_ne (Ne.symm h)

theorem testBit_or_bbNew_self (a sq : Nat) : (a ||| bbNew sq).testBit sq = true := by
  rw [Nat.testBit_or, testBit_bbNew_self]; simp

theorem testBit_or_bbNew_ne (a : Nat) {i sq : Nat} (h : i ≠ sq) :
    (a ||| bbNew sq).testBit i = a.testBit i := by
  rw [Nat.testBit_or, testBit_bbNew_ne h]; simp

theorem testBit_xor_bbNew_self (a sq : Nat) : (a ^^^ bbNew sq).testBit sq = !a.testBit sq := by
  rw [Nat.testBit_xor, testBit_bbNew_self]; cases a.testBit sq <;> rfl

theorem testBit_xor_bbNew_ne (a : Nat) {i sq : Nat} (h : i ≠ sq) :
    (a ^^^ bbNew sq).testBit i = a.testBit i := by
  rw [Nat.testBit_xor, testBit_bbNew_ne h]; cases a.testBit i <;> rfl

theorem bool_or_elim {a b : Bool} (h : (a || b) = true) : a = true ∨ b = true := by
  cases a <;> cases b <;> simp_all

theorem bool_or_false_elim {a b : Bool} (h : (a || b) = false) : a = false ∧ b = false := by
  cases a <;> cases b <;> simp_all

theorem occupied_testBit_or {p : Position} (i : Nat) :
    p.bb_occupied.testBit i =
      ((p.bb_sides Side.white).testBit i || (p.bb_sides Side.black).testBit i) := by
  rw [Position.bb_occupied, Nat.testBit_or]

theorem side_le_occupied (p : Position) (s : Side) : p.bb_sides s ≤ p.bb_occupied := by
  cases s
  · exact Nat.le_of_testBit (fun i h => by rw [occupied_testBit_or, h]; simp)
  · exact Nat.le_of_testBit (fun i h => by rw [occupied_testBit_or, h]; simp)

/-- On an occupied square, the mailbox piece pins down exactly which piece
and side bitboards carry the bit. -/
theorem occupied_piece_unique {p : Position} (hinv : PosInv p) {sq : Nat} (hsq : sq < 64)
    {pc : Piece} (hb : p.board sq = some pc) :
    (∀ t, (p.bb_pieces t).testBit sq = true ↔ t = pc.pieceType) ∧
      (∀ s, (p.bb_sides s).testBit sq = true ↔ s = pc.side) := by
  obtain ⟨hlt, hdisj, hun, hmb, hsc⟩ := hinv
  have hpcbit := (hmb sq hsq pc).mp hb
  rw [Position.bb_pc, Nat.testBit_and, Bool.and_eq_true] at hpcbit
  constructor
  · intro t
    constructor
    · intro ht
      -- the square is occupied, find the side holding it
      have hocc : p.bb_occupied.testBit sq = true := by
        have hsub := pieces_subset_occupied ⟨hlt, hdisj, hun, hmb, hsc⟩ t
        have h2 : (p.bb_pieces t &&& p.bb_occupied).testBit sq = true := by
          rw [hsub]; exact ht
        rw [Nat.testBit_and, Bool.and_eq_true] at h2
        exact h2.2
      rw [occupied_testBit_or] at hocc
      rcases bool_or_elim hocc with hw | hbk
      · have := (hmb sq hsq ⟨Side.white, t⟩).mpr
          (by rw [Position.bb_pc, Nat.testBit_and, ht, hw]; rfl)
        rw [hb] at this
        exact (congrArg Piece.pieceType (Option.some_inj.mp this)).symm
      · have := (hmb sq hsq ⟨Side.black, t⟩).mpr
          (by rw [Position.bb_pc, Nat.testBit_and, ht, hbk]; rfl)
        rw [hb] at this
        exact (congrArg Piece.pieceType (Option.some_inj.mp this)).symm
    · intro ht; rw [ht]; exact hpcbit.1
  · intro s
    constructor
    · intro hs
      -- the occupied square lies in some piece bitboard
      have hocc : p.bb_occupied.testBit sq = true := by
        rw [occupied_testBit_or]
        cases s
        · rw [hs]; simp
        · rw [hs]; simp
      have huni : (unionPieces p).testBit sq = true := by
        rw [hun, Position.bb_occupied] at *
        exact hocc
      rw [unionPieces] at huni
      simp only [Nat.testBit_or, Bool.or_eq_true] at huni
      have hex : ∃ t, (p.bb_pieces t).testBit sq = true := by
        rcases huni with ((((h | h) | h) | h) | h) | h
        · exact ⟨PieceType.pawn, h⟩
        · exact ⟨PieceType.knight, h⟩
        · exact ⟨PieceType.bishop, h⟩
        · exact ⟨PieceType.rook, h⟩
        · exact ⟨PieceType.queen, h⟩
        · exact ⟨PieceType.king, h⟩
      obtain ⟨t, ht⟩ := hex
      have := (hmb sq hsq ⟨s, t⟩).mpr
        (by rw [Position.bb_pc, Nat.testBit_and, ht, hs]; rfl)
      rw [hb] at this
      exact (congrArg Piece.side (Option.some_inj.mp this)).symm
    · intro hs; rw [hs]; exact hpcbit.2

/-- On an empty square no bitboard carries the bit. -/
theorem empty_square_bits {p : Position} (hinv : PosInv p) {sq : Nat} (hsq : sq < 64)
    (hb : p.board sq = none) :
    (∀ t, (p.bb_pieces t).testBit sq = false) ∧
      (∀ s, (p.bb_sides s).testBit sq = false) := by
  obtain ⟨hlt, hdisj, hun, hmb, hsc⟩ := hinv
  have hocc : p.bb_occupied.testBit sq = false := by
    by_contra hko
    have hocc : p.bb_occupied.testBit sq = true := by
      cases h : p.bb_occupied.testBit sq
      · exact absurd h hko
      · rfl
    have huni : (unionPieces p).testBit sq = true := by rw [hun]; exact hocc
    rw [unionPieces] at huni
    simp only [Nat.testBit_or, Bool.or_eq_true] at huni
    have hex : ∃ t, (p.bb_pieces t).testBit sq = true := by
      rcases huni with ((((h | h) | h) | h) | h) | h
      · exact ⟨PieceType.pawn, h⟩
      · exact ⟨PieceType.knight, h⟩
      · exact ⟨PieceType.bishop, h⟩
      · exact ⟨PieceType.rook, h⟩
      · exact ⟨PieceType.queen, h⟩
      · exact ⟨PieceType.king, h⟩
    obtain ⟨t, ht⟩ := hex
    rw [occupied_testBit_or] at hocc
    rcases bool_or_elim hocc with hw | hbk
    · have := (hmb sq hsq ⟨Side.white, t⟩).mpr
        (by rw [Position.bb_pc, Nat.testBit_and, ht, hw]; rfl)
      rw [hb] at this
      exact Option.noConfusion this
    · have := (hmb sq hsq ⟨Side.black, t⟩).mpr
        (by rw [Position.bb_pc, Nat.testBit_and, ht, hbk]; rfl)
      rw [hb] at this
      exact Option.noConfusion this
  constructor
  · intro t
    have hsub := pieces_subset_occupied ⟨hlt, hdisj, hun, hmb, hsc⟩ t
    have := congrArg (fun n => n.testBit sq) hsub
    simp only [Nat.testBit_and, hocc, Bool.and_false] at this
    exact this.symm
  · intro s
    rw [occupied_testBit_or] at hocc
    cases s
    · exact (bool_or_false_elim hocc).1
    · exact (bool_or_false_elim hocc).2

/-- Material contribution of one mailbox entry for one side. -/
def pieceContrib (o : Option Piece) (s : Side) : Nat :=
  match o with
  | some pc => if pc.side = s then pc.pieceType.score else 0
  | none => 0

theorem materialAux_succ (board : Nat → Option Piece) (s : Side) (n : Nat) :
    materialAux board s (n + 1) = materialAux board s n + pieceContrib (board n) s := rfl

theorem materialAux_congr {f g : Nat → Option Piece} (s : Side) :
    ∀ n, (∀ i, i < n → f i = g i) → materialAux f s n = materialAux g s n := by
  intro n
  induction n with
  | zero => intro _; rfl
  | succ n ih =>
    intro h
    rw [materialAux_succ, materialAux_succ, ih (fun i hi => h i (by omega)), h n (by omega)]

theorem materialAux_update (board : Nat → Option Piece) (sq : Nat) (v : Option Piece)
    (s : Side) :
    ∀ n, sq < n →
      materialAux (fun i => if i = sq then v else board i) s n +
          pieceContrib (board sq) s =
        materialAux board s n + pieceContrib v s := by
  intro n
  induction n with
  | zero => intro h; omega
  | succ n ih =>
    intro h
    by_cases hsq : sq = n
    · subst hsq
      rw [materialAux_succ, materialAux_succ]
      have hpre : materialAux (fun i => if i = sq then v else board i) s sq =
          materialAux board s sq :=
        materialAux_congr s sq (fun i hi => by rw [if_neg (by omega)])
      rw [hpre]
      have h3 : (if sq = sq then v else board sq) = v := if_pos rfl
      have h4 : pieceContrib (if sq = sq then v else board sq) s = pieceContrib v s := by
        rw [h3]
      omega
    · have hlt : sq < n := by omega
      rw [materialAux_succ, materialAux_succ]
      have hn : (if n = sq then v else board n) = board n := by rw [if_neg (Ne.symm (by omega))]
      rw [hn]
      have := ih hlt
      omega

theorem pow_sq_lt {sq : Nat} (hsq : sq < 64) : bbNew sq < 2 ^ 64 := by
  rw [bbNew_eq_pow]
  exact Nat.pow_lt_pow_right (by omega) hsq

/-- Placing a piece on an empty square keeps all Position invariants. -/
theorem place_preserves {p : Position} (hinv : PosInv p) (pt : PieceType) (s : Side)
    {sq : Nat} (hsq : sq < 64) (hemp : p.board sq = none) :
    PosInv (p.place_piece pt sq s) := by
  obtain ⟨hpbits, hsbits⟩ := empty_square_bits hinv hsq hemp
  obtain ⟨hlt, hdisj, hun, hmb, hsc⟩ := hinv
  refine ⟨?_, ?_, ?_, ?_, ?_⟩
  · intro s2
    show (if s2 = s then p.bb_sides s2 ||| bbNew sq else p.bb_sides s2) < 2 ^ 64
    by_cases h : s2 = s
    · rw [if_pos h]
      exact Nat.or_lt_two_pow (hlt s2) (pow_sq_lt hsq)
    · rw [if_neg h]
      exact hlt s2
  · show (if Side.white = s then p.bb_sides Side.white ||| bbNew sq else p.bb_sides Side.white) &&&
        (if Side.black = s then p.bb_sides Side.black ||| bbNew sq else p.bb_sides Side.black) = 0
    rw [and_eq_zero_iff_testBit]
    intro i ⟨h1, h2⟩
    have hold := and_eq_zero_iff_testBit.mp hdisj i
    by_cases hi : i = sq
    · subst hi
      cases s
      · rw [if_pos rfl] at h1
        rw [if_neg (by simp)] at h2
        rw [hsbits Side.black] at h2
        exact Bool.noConfusion h2
      · rw [if_neg (by simp)] at h1
        rw [hsbits Side.white] at h1
        exact Bool.noConfusion h1
    · have h1o : (p.bb_sides Side.white).testBit i = true := by
        rcases ite_eq_or_eq (Side.white = s)
            (p.bb_sides Side.white ||| bbNew sq) (p.bb_sides Side.white) with h | h
        · rw [h, testBit_or_bbNew_ne _ hi] at h1; exact h1
        · rw [h] at h1; exact h1
      have h2o : (p.bb_sides Side.black).testBit i = true := by
        rcases ite_eq_or_eq (Side.black = s)
            (p.bb_sides Side.black ||| bbNew sq) (p.bb_sides Side.black) with h | h
        · rw [h, testBit_or_bbNew_ne _ hi] at h2; exact h2
        · rw [h] at h2; exact h2
      exact hold ⟨h1o, h2o⟩
  · apply Nat.eq_of_testBit_eq
    intro i
    have hu := congrArg (fun n => n.testBit i) hun
    simp only [unionPieces, Position.bb_occupied, Nat.testBit_or] at hu
    by_cases hi : i = sq
    · subst hi
      cases pt <;> cases s <;>
        simp [Position.place_piece, unionPieces, Position.bb_occupied, Nat.testBit_or,
          testBit_or_bbNew_self, testBit_bbNew_self]
    · show (unionPieces (p.place_piece pt sq s)).testBit i =
        ((p.place_piece pt sq s).bb_occupied).testBit i
      have harm : ∀ (c : Prop) [Decidable c] (a : Nat),
          (if c then a ||| bbNew sq else a).testBit i = a.testBit i := by
        intro c hc a
        split
        · exact testBit_or_bbNew_ne a hi
        · rfl
      simp only [unionPieces, Position.bb_occupied, Position.place_piece, Nat.testBit_or, harm]
      exact hu
  · intro i hi pc
    by_cases hisq : i = sq
    · subst hisq
      constructor
      · intro hbd
        have hpc : pc = Piece.new s pt := by
          have : some (Piece.new s pt) = some pc := by
            show _ = some pc
            rw [← hbd]
            show some (Piece.new s pt) = (if i = i then some (Piece.new s pt) else p.board i)
            rw [if_pos rfl]
          exact (Option.some_inj.mp this).symm
        subst hpc
        show ((if pt = pt then p.bb_pieces pt ||| bbNew i else p.bb_pieces pt) &&&
            (if s = s then p.bb_sides s ||| bbNew i else p.bb_sides s)).testBit i = true
        rw [if_pos rfl, if_pos rfl, Nat.testBit_and, testBit_or_bbNew_self, testBit_or_bbNew_self]
        rfl
      · intro hbit
        have hmain : pc = Piece.new s pt := by
          rw [Position.bb_pc, Nat.testBit_and, Bool.and_eq_true] at hbit
          obtain ⟨hbp, hbs⟩ := hbit
          have hppt : pc.pieceType = pt := by
            by_contra hne
            rw [show (p.place_piece pt i s).bb_pieces pc.pieceType = p.bb_pieces pc.pieceType
              from if_neg hne] at hbp
            rw [hpbits pc.pieceType] at hbp
            exact Bool.noConfusion hbp
          have hpsd : pc.side = s := by
            by_contra hne
            rw [show (p.place_piece pt i s).bb_sides pc.side = p.bb_sides pc.side
              from if_neg hne] at hbs
            rw [hsbits pc.side] at hbs
            exact Bool.noConfusion hbs
          cases pc
          simp only at hppt hpsd
          rw [hppt, hpsd]
          rfl
        subst hmain
        show (if i = i then some (Piece.new s pt) else p.board i) = some (Piece.new s pt)
        rw [if_pos rfl]
    · have hbp : ((p.place_piece pt sq s).bb_pc pc.pieceType pc.side).testBit i =
          (p.bb_pc pc.pieceType pc.side).testBit i := by
        rw [Position.bb_pc, Position.bb_pc, Nat.testBit_and, Nat.testBit_and]
        have h1 : ((p.place_piece pt sq s).bb_pieces pc.pieceType).testBit i =
            (p.bb_pieces pc.pieceType).testBit i := by
          show ((if pc.pieceType = pt then p.bb_pieces pc.pieceType ||| bbNew sq
            else p.bb_pieces pc.pieceType)).testBit i = _
          split
          · exact testBit_or_bbNew_ne _ hisq
          · rfl
        have h2 : ((p.place_piece pt sq s).bb_sides pc.side).testBit i =
            (p.bb_sides pc.side).testBit i := by
          show ((if pc.side = s then p.bb_sides pc.side ||| bbNew sq
            else p.bb_sides pc.side)).testBit i = _
          split
          · exact testBit_or_bbNew_ne _ hisq
          · rfl
        rw [h1, h2]
      rw [hbp]
      show (if i = sq then some (Piece.new s pt) else p.board i) = some pc ↔ _
      rw [if_neg hisq]
      exact hmb i hi pc
  · intro s2
    show (if s2 = s then p.score s2 + pt.score else p.score s2) =
      material (p.place_piece pt sq s) s2
    have hupd := materialAux_update p.board sq (some (Piece.new s pt)) s2 64 hsq
    rw [hemp] at hupd
    have hm : material (p.place_piece pt sq s) s2 =
        material p s2 + pieceContrib (some (Piece.new s pt)) s2 := by
      rw [material, material]
      have : materialAux (fun i => if i = sq then some (Piece.new s pt) else p.board i) s2 64 =
          materialAux p.board s2 64 + pieceContrib (some (Piece.new s pt)) s2 := by
        have h0 : pieceContrib none s2 = 0 := rfl
        omega
      exact this
    rw [hm, ← hsc s2]
    show _ = p.score s2 + (if s = s2 then pt.score else 0)
    by_cases h : s2 = s
    · rw [if_pos h, if_pos h.symm]
    · rw [if_neg h, if_neg (fun hc => h hc.symm), Nat.add_zero]

/-- Removing the piece that a square holds keeps all Position invariants. -/
theorem remove_preserves {p : Position} (hinv : PosInv p) (pt : PieceType) (s : Side)
    {sq : Nat} (hsq : sq < 64) (hb : p.board sq = some (Piece.new s pt)) :
    PosInv (p.remove_piece pt sq s) := by
  obtain ⟨hptbit, hsbit⟩ := occupied_piece_unique hinv hsq hb
  obtain ⟨hlt, hdisj, hun, hmb, hsc⟩ := hinv
  have hPpt : (p.bb_pieces pt).testBit sq = true := (hptbit pt).mpr rfl
  have hPother : ∀ t, t ≠ pt → (p.bb_pieces t).testBit sq = false := by
    intro t ht
    cases h : (p.bb_pieces t).testBit sq
    · rfl
    · exact absurd ((hptbit t).mp h) ht
  have hSs : (p.bb_sides s).testBit sq = true := (hsbit s).mpr rfl
  have hSother : ∀ s2, s2 ≠ s → (p.bb_sides s2).testBit sq = false := by
    intro s2 hs2
    cases h : (p.bb_sides s2).testBit sq
    · rfl
    · exact absurd ((hsbit s2).mp h) hs2
  have hterm : ∀ t, ((p.remove_piece pt sq s).bb_pieces t).testBit sq = false := by
    intro t
    show ((if t = pt then p.bb_pieces t ^^^ bbNew sq else p.bb_pieces t)).testBit sq = false
    by_cases h : t = pt
    · rw [if_pos h, testBit_xor_bbNew_self, h, hPpt]; rfl
    · rw [if_neg h]; exact hPother t h
  have hside : ∀ s2, ((p.remove_piece pt sq s).bb_sides s2).testBit sq = false := by
    intro s2
    show ((if s2 = s then p.bb_sides s2 ^^^ bbNew sq else p.bb_sides s2)).testBit sq = false
    by_cases h : s2 = s
    · rw [if_pos h, testBit_xor_bbNew_self, h, hSs]; rfl
    · rw [if_neg h]; exact hSother s2 h
  have htermne : ∀ t i, i ≠ sq → ((p.remove_piece pt sq s).bb_pieces t).testBit i =
      (p.bb_pieces t).testBit i := by
    intro t i hi
    show ((if t = pt then p.bb_pieces t ^^^ bbNew sq else p.bb_pieces t)).testBit i = _
    split
    · exact testBit_xor_bbNew_ne _ hi
    · rfl
  have hsidene : ∀ s2 i, i ≠ sq → ((p.remove_piece pt sq s).bb_sides s2).testBit i =
      (p.bb_sides s2).testBit i := by
    intro s2 i hi
    show ((if s2 = s then p.bb_sides s2 ^^^ bbNew sq else p.bb_sides s2)).testBit i = _
    split
    · exact testBit_xor_bbNew_ne _ hi
    · rfl
  refine ⟨?_, ?_, ?_, ?_, ?_⟩
  · intro s2
    show (if s2 = s then p.bb_sides s2 ^^^ bbNew sq else p.bb_sides s2) < 2 ^ 64
    by_cases h : s2 = s
    · rw [if_pos h]
      exact Nat.xor_lt_two_pow (hlt s2) (pow_sq_lt hsq)
    · rw [if_neg h]
      exact hlt s2
  · rw [and_eq_zero_iff_testBit]
    intro i ⟨h1, h2⟩
    have hold := and_eq_zero_iff_testBit.mp hdisj i
    by_cases hi : i = sq
    · subst hi
      rw [hside Side.white] at h1
      exact Bool.noConfusion h1
    · rw [hsidene Side.white i hi] at h1
      rw [hsidene Side.black i hi] at h2
      exact hold ⟨h1, h2⟩
  · apply Nat.eq_of_testBit_eq
    intro i
    by_cases hi : i = sq
    · subst hi
      simp only [unionPieces, Position.bb_occupied, Nat.testBit_or, hterm, hside]
      rfl
    · have hu := congrArg (fun n => n.testBit i) hun
      simp only [unionPieces, Position.bb_occupied, Nat.testBit_or] at hu
      simp only [unionPieces, Position.bb_occupied, Nat.testBit_or, htermne _ i hi,
        hsidene _ i hi]
      exact hu
  · intro i hi pc
    by_cases hisq : i = sq
    · subst hisq
      constructor
      · intro hbd
        have : (none : Option Piece) = some pc := by
          show _ = some pc
          rw [← hbd]
          show (none : Option Piece) = (if i = i then none else p.board i)
          rw [if_pos rfl]
        exact Option.noConfusion this
      · intro hbit
        rw [Position.bb_pc, Nat.testBit_and, hterm, Bool.false_and] at hbit
        exact Bool.noConfusion hbit
    · have hbp : ((p.remove_piece pt sq s).bb_pc pc.pieceType pc.side).testBit i =
          (p.bb_pc pc.pieceType pc.side).testBit i := by
        rw [Position.bb_pc, Position.bb_pc, Nat.testBit_and, Nat.testBit_and,
          htermne _ i hisq, hsidene _ i hisq]
      rw [hbp]
      show (if i = sq then none else p.board i) = some pc ↔ _
      rw [if_neg hisq]
      exact hmb i hi pc
  · intro s2
    show (if s2 = s then p.score s2 - pt.score else p.score s2) =
      material (p.remove_piece pt sq s) s2
    have hupd := materialAux_update p.board sq none s2 64 hsq
    rw [hb] at hupd
    have hcontrib : pieceContrib (some (Piece.new s pt)) s2 =
        if s = s2 then pt.score else 0 := rfl
    have hnone : pieceContrib (none : Option Piece) s2 = 0 := rfl
    have hmat : material (p.remove_piece pt sq s) s2 +
        (if s = s2 then pt.score else 0) = material p s2 := by
      rw [material, material]
      have heq : materialAux (p.remove_piece pt sq s).board s2 64 =
          materialAux (fun i => if i = sq then none else p.board i) s2 64 := rfl
      rw [heq]
      omega
    rw [← hsc s2] at hmat
    by_cases h : s2 = s
    · rw [if_pos h]
      rw [if_pos h.symm] at hmat
      omega
    · rw [if_neg h]
      rw [if_neg (fun hc => h hc.symm)] at hmat
      omega

/-- C7: place on an empty square, remove of the exact piece a square
holds, and move under both preconditions each preserve all the Position
invariants: disjoint side bitboards, piece union equal to side union,
mailbox agreement, and per-side material score. -/
theorem c7_place_remove_move_preserve (p : Position) (pt : PieceType) (s : Side)
    (hinv : PosInv p) :
    (∀ sq, sq < 64 → p.at_sq sq = none → PosInv (p.place_piece pt sq s)) ∧
    (∀ sq, sq < 64 → p.at_sq sq = some (Piece.new s pt) →
      PosInv (p.remove_piece pt sq s)) ∧
    (∀ from_sq to_sq, from_sq < 64 → to_sq < 64 →
      p.at_sq from_sq = some (Piece.new s pt) → p.at_sq to_sq = none →
      PosInv (p.move_piece pt from_sq to_sq s)) := by
  refine ⟨?_, ?_, ?_⟩
  · intro sq hsq hemp
    exact place_preserves hinv pt s hsq hemp
  · intro sq hsq hb
    exact remove_preserves hinv pt s hsq hb
  · intro from_sq to_sq hf ht hb hemp
    have hrm := remove_preserves hinv pt s hf hb
    have hemp2 : (p.remove_piece pt from_sq s).board to_sq = none := by
      show (if to_sq = from_sq then none else p.board to_sq) = none
      by_cases h : to_sq = from_sq
      · rw [if_pos h]
      · rw [if_neg h]; exact hemp
    exact place_preserves hrm pt s ht hemp2

instance (p : Position) : Decidable (PosInv p) := by
  unfold PosInv
  infer_instance

instance (p : Position) : Decidable (oneKingPerSide p) := by
  unfold oneKingPerSide
  infer_instance

instance (bb : Nat) : Decidable (sameComplexBishops bb) := by
  unfold sameComplexBishops
  infer_instance

instance (p : Position) : Decidable (insufficientMaterialSpec p) := by
  unfold insufficientMaterialSpec
  infer_instance

/-- Position with white king e1, white pawn a2, black king e8, used as a
concrete instance. -/
def posKKP : Position :=
  { bb_sides := fun s => match s with
      | Side.white => 2 ^ 4 + 2 ^ 8
      | Side.black => 2 ^ 60
    bb_pieces := fun t => match t with
      | PieceType.king => 2 ^ 4 + 2 ^ 60
      | PieceType.pawn => 2 ^ 8
      | _ => 0
    board := fun sq =>
      if sq = 4 then some (Piece.new Side.white PieceType.king)
      else if sq = 8 then some (Piece.new Side.white PieceType.pawn)
      else if sq = 60 then some (Piece.new Side.black PieceType.king)
      else none
    score := fun s => match s with
      | Side.white => 100
      | Side.black => 0 }

/-- Witness for C7: the preservation theorem applied to a concrete
  position, a place on a3, a remove of the a2 pawn, and a move a2-a3. -/
theorem c7_place_remove_move_preserve_witness :
    PosInv posKKP ∧
      PosInv (posKKP.place_piece PieceType.pawn 16 Side.white) ∧
      PosInv (posKKP.remove_piece PieceType.pawn 8 Side.white) ∧
      PosInv (posKKP.move_piece PieceType.pawn 8 16 Side.white) := by
  have h := c7_place_remove_move_preserve posKKP PieceType.pawn Side.white (by decide)
  exact ⟨by decide, h.1 16 (by decide) (by decide), h.2.1 8 (by decide) (by decide),
    h.2.2 8 16 (by decide) (by decide) (by decide) (by decide)⟩

/-- Position with only the two kings (white e1, black e8). -/
def posKK : Position :=
  { bb_sides := fun s => match s with
      | Side.white => 2 ^ 4
      | Side.black => 2 ^ 60
    bb_pieces := fun t => match t with
      | PieceType.king => 2 ^ 4 + 2 ^ 60
      | _ => 0
    board := fun sq =>
      if sq = 4 then some (Piece.new Side.white PieceType.king)
      else if sq = 60 then some (Piece.new Side.black PieceType.king)
      else none
    score := fun _ => 0 }

/-- Witness for C6: the equivalence applied to the bare-kings position. -/
theorem c6_insufficient_material_exact_witness :
    (PosInv posKK ∧ oneKingPerSide posKK) ∧
      ((posKK.insufficient_material = true ↔ insufficientMaterialSpec posKK) ∧
        ((posKK.bb_pieces PieceType.pawn ≠ 0 ∨ posKK.bb_pieces PieceType.rook ≠ 0 ∨
            posKK.bb_pieces PieceType.queen ≠ 0) → posKK.insufficient_material = false)) :=
  ⟨⟨by decide, by decide⟩, c6_insufficient_material_exact posKK (by decide) (by decide)⟩

/-! ## Castle rights (src/state/castle_rights.rs)

CastleRights is a u8 newtype; we model the byte as a Nat.  The bit layout
fixed by the constants: bit 0 = black queenside, bit 1 = black kingside,
bit 2 = white queenside, bit 3 = white kingside. -/

def crNONE : Nat := 0
def crKINGSIDE : Nat := 10
def crQUEENSIDE : Nat := 5
def crWHITE : Nat := 12
def crBLACK : Nat := 3
def crALL : Nat := 15

/-- Model of the `COLOR_RIGHTS` array, indexed through `Side::to_usize`. -/
def COLOR_RIGHTS : Side → Nat
  | Side.white => crWHITE
  | Side.black => crBLACK

/-- Modelled from the spec: `Castle::to_usize` is in mv/castle.rs, not
under src/.  `hash_castle_rights_single` and the castle_rights.rs tests
fix kingside = 1 and queenside = 0 (the `CASTLE_RIGHTS` array is
`[QUEENSIDE, KINGSIDE]` and `NONE.set(White, Kingside)` displays "K"). -/
def Castle.to_usize : Castle → Nat
  | Castle.kingside => 1
  | Castle.queenside => 0

/-- Model of the `CASTLE_RIGHTS` array `[QUEENSIDE, KINGSIDE]`, indexed
through `Castle::to_usize`. -/
def CASTLE_RIGHTS : Castle → Nat
  | Castle.kingside => crKINGSIDE
  | Castle.queenside => crQUEENSIDE

/-- Model of `CastleRights::set`. -/
def crSet (cr : Nat) (side : Side) (castle : Castle) : Nat :=
  cr ||| (COLOR_RIGHTS side &&& CASTLE_RIGHTS castle)

/-- Model of `CastleRights::can`. -/
def crCan (cr : Nat) (side : Side) (castle : Castle) : Bool :=
  let side_rights := if side = Side.white then crWHITE else crBLACK
  let castle_rights := if castle = Castle.kingside then crKINGSIDE else crQUEENSIDE
  let rights := castle_rights &&& side_rights
  decide ((cr &&& rights) ≠ 0)

/-- Model of `CastleRightsIterator`: repeatedly emit `lsb().to_usize()`
and clear the low bit.  The fuel of 64 is exact for any u64 value. -/
def iterBitsAux : Nat → Nat → List Nat
  | 0, _ => []
  | f + 1, n => if n = 0 then [] else bitscan (lsb64 n) :: iterBitsAux f (n ^^^ lsb64 n)

/-- Model of `CastleRights::iter` as the list of emitted indices. -/
def crIter (cr : Nat) : List Nat := iterBitsAux 64 cr

/-! ## Zobrist hashing (src/state/zobrist.rs)

The key tables (`PIECES_KEY`, `EN_PASSANT_KEY`, `CASTLE_RIGHTS_KEY`,
`SIDE_KEY`) are fixed literal u64 arrays in the source; the castle-rights
claim is an equivalence of two hashing routes that holds for every key
table, so the tables enter the model as a parameter rather than as 781
transcribed constants. -/

structure ZKeys where
  piecesKey : Side → PieceType → Nat → Nat
  enPassantKey : Nat → Nat
  castleRightsKey : Nat → Nat
  sideKey : Nat

/-- Model of `Zobrist::hash_castle_rights_all`: iterate the set bits of
the rights byte, xoring `CASTLE_RIGHTS_KEY[bit]` for each. -/
def hash_castle_rights_all (k : ZKeys) (z : Nat) (castle_rights : Nat) : Nat :=
  (crIter castle_rights).foldl (fun z bit_set => z ^^^ k.castleRightsKey bit_set) z

/-- Model of `Zobrist::hash_castle_rights_single`. -/
def hash_castle_rights_single (k : ZKeys) (z : Nat) (side : Side) (castle : Castle) : Nat :=
  let side_start_idx : Nat := if side = Side.white then 2 else 0
  let castle_idx : Nat := if castle = Castle.kingside then 1 else 0
  z ^^^ k.castleRightsKey (castle_idx + side_start_idx)

/-- The castle-rights loop of `Zobrist::new`: for each side (SIDE_MAP
order, white then black) and each castle (queenside then kingside), hash
the single right if it is granted.  SIDE_MAP lives in side.rs, which is
not under src/; the spec fixes its members and xor-commutativity makes
the order irrelevant to every statement below. -/
def zobristNewCastlePart (k : ZKeys) (z : Nat) (castle_rights : Nat) : Nat :=
  [Side.white, Side.black].foldl (fun z side =>
    [Castle.queenside, Castle.kingside].foldl (fun z castle =>
      if crCan castle_rights side castle then hash_castle_rights_single k z side castle
      else z) z) z

/-- Model of `Zobrist::new`: hash every board piece, then the granted
castle rights one by one, then the en-passant file, then the side to
move.  `Square::file` is `sq % 8` (spec section 3). -/
def zobristNew (k : ZKeys) (position : Position) (castle_rights : Nat)
    (en_passant : Option Nat) (side : Side) : Nat :=
  let z0 := (List.range 64).foldl (fun z sq =>
    match position.at_sq sq with
    | some pc => z ^^^ k.piecesKey pc.side pc.pieceType sq
    | none => z) 0
  let z1 := zobristNewCastlePart k z0 castle_rights
  let z2 := match en_passant with
    | some sq => z1 ^^^ k.enPassantKey (sq % 8)
    | none => z1
  if side = Side.black then z2 ^^^ k.sideKey else z2

/-- Index list of the granted rights in the order `Zobrist::new` hashes
them: white queenside (key index 2), white kingside (3), black queenside
(0), black kingside (1). -/
def newCastleIdxList (cr : Nat) : List Nat :=
  (if crCan cr Side.white Castle.queenside then [2] else []) ++
    (if crCan cr Side.white Castle.kingside then [3] else []) ++
    (if crCan cr Side.black Castle.queenside then [0] else []) ++
    (if crCan cr Side.black Castle.kingside then [1] else [])

theorem zobristNewCastlePart_eq_fold (k : ZKeys) (z cr : Nat) :
    zobristNewCastlePart k z cr =
      (newCastleIdxList cr).foldl (fun z i => z ^^^ k.castleRightsKey i) z := by
  unfold zobristNewCastlePart newCastleIdxList hash_castle_rights_single
  cases h1 : crCan cr Side.white Castle.queenside <;>
    cases h2 : crCan cr Side.white Castle.kingside <;>
    cases h3 : crCan cr Side.black Castle.queenside <;>
    cases h4 : crCan cr Side.black Castle.kingside <;>
    simp [h1, h2, h3, h4, List.foldl]

/-- C10: for every castle-rights byte, hashing all granted rights through
the bit iterator (`hash_castle_rights_all`) gives the same key as hashing
each granted (side, castle) right once through
`hash_castle_rights_single`, in the way `Zobrist::new` does — the
CastleRights bit layout and the CASTLE_RIGHTS_KEY index mapping agree
between the two routes, for every key table and starting key. -/
theorem c10_castle_hash_routes_agree (k : ZKeys) (cr : Nat) (hcr : cr < 16) (z : Nat) :
    hash_castle_rights_all k z cr = zobristNewCastlePart k z cr := by
  have hperm : ∀ c, c < 16 → (crIter c).Perm (newCastleIdxList c) := by decide
  rw [hash_castle_rights_all, zobristNewCastlePart_eq_fold]
  exact List.Perm.foldl_eq' (hperm cr hcr)
    (fun x _ y _ z => by
      rw [Nat.xor_assoc, Nat.xor_assoc, Nat.xor_comm (k.castleRightsKey x)]) z

/-- Witness for C10: both routes at the all-rights byte 0b1111, with the
key table `CASTLE_RIGHTS_KEY[i] = 2^i` and starting key 0. -/
theorem c10_castle_hash_routes_agree_witness :
    (15 : Nat) < 16 ∧
      hash_castle_rights_all ⟨fun _ _ _ => 0, fun _ => 0, fun i => 2 ^ i, 1⟩ 0 15 =
        zobristNewCastlePart ⟨fun _ _ _ => 0, fun _ => 0, fun i => 2 ^ i, 1⟩ 0 15 :=
  ⟨by decide, c10_castle_hash_routes_agree ⟨fun _ _ _ => 0, fun _ => 0, fun i => 2 ^ i, 1⟩
    15 (by decide) 0⟩

/-! ## FEN parsing (src/fen.rs)

Rust results `Result<T, String>` are modelled by `PRes`; the extra
`panic` constructor records an index-out-of-range or shift-overflow
panic, which a Rust `Result` cannot represent. -/

inductive PRes (α : Type) where
  | ok (val : α)
  | err (msg : String)
  | panic
deriving DecidableEq, Repr

/-- Sequencing of fallible parses (the `?` operator). -/
def PRes.bind {α β : Type} : PRes α → (α → PRes β) → PRes β
  | .ok a, f => f a
  | .err m, _ => .err m
  | .panic, _ => .panic

def PRes.isPanic {α : Type} : PRes α → Bool
  | .panic => true
  | _ => false

def PRes.isOk {α : Type} : PRes α → Bool
  | .ok _ => true
  | _ => false

def PRes.isErr {α : Type} : PRes α → Bool
  | .err _ => true
  | _ => false

/-- Modelled from the spec: `PieceType::try_from(char)` lives in
piece_type.rs, which is not under src/; the letters are the standard FEN
piece letters. -/
def PieceType.try_from (c : Char) : PRes PieceType :=
  if c = 'p' then .ok PieceType.pawn
  else if c = 'n' then .ok PieceType.knight
  else if c = 'b' then .ok PieceType.bishop
  else if c = 'r' then .ok PieceType.rook
  else if c = 'q' then .ok PieceType.queen
  else if c = 'k' then .ok PieceType.king
  else .err ("invalid piece char")

/-- Loop of `parse_fen_board` over the characters of the board field.
`char::is_numeric` is modelled as the ASCII digit test (the two only
differ on non-ASCII numerals), `to_lowercase().next()` as `Char.toLower`
(on a char it is never empty, so its `ok_or` arm is dead), and
`Square::from(rank, file)` as `8*rank + file` per the spec.  The file
counter is never range-checked: when the square index reaches 64 the
`BB::new` shift and the `board[sq]` write are out of range and the
program panics, which the model records as `PRes.panic`. -/
def parse_fen_board_loop : List Char → (Side → Nat) → (PieceType → Nat) →
    (Nat → Option Piece) → Int → Nat →
    PRes ((Side → Nat) × (PieceType → Nat) × (Nat → Option Piece))
  | [], bb_sides, bb_pieces, board, _, _ => .ok (bb_sides, bb_pieces, board)
  | c :: rest, bb_sides, bb_pieces, board, rank, file =>
    if c = '/' then parse_fen_board_loop rest bb_sides bb_pieces board (rank - 1) 0
    else if c.isDigit then
      parse_fen_board_loop rest bb_sides bb_pieces board rank (file + (c.toNat - 48))
    else
      let piece_lowercase := c.toLower
      (PieceType.try_from piece_lowercase).bind fun piece_type =>
        if ¬(0 ≤ rank ∧ rank ≤ 7) then .err ("fen board contains too many files or ranks")
        else
          let sq := rank.toNat * 8 + file
          if sq < 64 then
            let sq_bb := bbNew sq
            let bb_pieces2 := fun t => if t = piece_type then bb_pieces t ||| sq_bb
              else bb_pieces t
            let side := if piece_lowercase = c then Side.black else Side.white
            let bb_sides2 := fun s => if s = side then bb_sides s ||| sq_bb else bb_sides s
            let board2 := fun i => if i = sq then some (Piece.new side piece_type) else board i
            parse_fen_board_loop rest bb_sides2 bb_pieces2 board2 rank (file + 1)
          else .panic

/-- Model of `parse_fen_board`.  Fields are carried as character lists
(`str::split` pieces). -/
def parse_fen_board (fen_board : List Char) :
    PRes ((Side → Nat) × (PieceType → Nat) × (Nat → Option Piece)) :=
  parse_fen_board_loop fen_board (fun _ => 0) (fun _ => 0) (fun _ => none) 7 0

/-- Loop of `parse_fen_castle` over the characters of the castle field. -/
def parse_fen_castle_loop : List Char → Nat → PRes Nat
  | [], castle_rights => .ok castle_rights
  | c :: rest, castle_rights =>
    if c = 'K' then parse_fen_castle_loop rest (crSet castle_rights Side.white Castle.kingside)
    else if c = 'Q' then
      parse_fen_castle_loop rest (crSet castle_rights Side.white Castle.queenside)
    else if c = 'k' then
      parse_fen_castle_loop rest (crSet castle_rights Side.black Castle.kingside)
    else if c = 'q' then
      parse_fen_castle_loop rest (crSet castle_rights Side.black Castle.queenside)
    else .err ("invalid character in castle rights")

/-- Model of `parse_fen_castle`. -/
def parse_fen_castle (fen_castle : List Char) : PRes Nat :=
  if fen_castle = ['-'] then .ok crNONE
  else parse_fen_castle_loop fen_castle crNONE

/-- Modelled from the spec: `square::RANKS` (square.rs is not under
src/). -/
def RANKS : List Char := ['1', '2', '3', '4', '5', '6', '7', '8']

/-- Modelled from the spec: `square::FILES`. -/
def FILES : List Char := ['a', 'b', 'c', 'd', 'e', 'f', 'g', 'h']

/-- Model of `parse_fen_en_passant`. -/
def parse_fen_en_passant (fen_en_passant : List Char) : PRes (Option Nat) :=
  if fen_en_passant = ['-'] then .ok none
  else if fen_en_passant.length ≠ 2 then
    .err ("is an invalid en passant square")
  else
    match fen_en_passant with
    | [file_char, rank_char] =>
      if ¬(rank_char ∈ RANKS) then .err ("invalid en passant square")
      else if ¬(file_char ∈ FILES) then .err ("invalid en passant square")
      else
        let file := file_char.toNat - 'a'.toNat
        let rank := rank_char.toNat - '1'.toNat
        .ok (some (rank * 8 + file))
    | _ => .panic

/-- Model of Rust `u16::from_str` (`parse::<u16>()`): an optional leading
plus sign, then one or more ASCII digits, value within the u16 range. -/
def parse_u16 (cs : List Char) : Option Nat :=
  let cs2 := match cs with
    | c :: rest => if c = '+' then rest else cs
    | [] => []
  if cs2 = [] then none
  else if cs2.all Char.isDigit then
    let v := cs2.foldl (fun a c => a * 10 + (c.toNat - 48)) 0
    if v < 65536 then some v else none
  else none

/-- Modelled from the spec: the State record (state/mod.rs is not under
src/) holds the en-passant square, side to move, castle rights, halfmove
and fullmove counters, and Zobrist key (spec section 3). -/
structure State where
  en_passant : Option Nat
  side_to_move : Side
  castle_rights : Nat
  halfmoves : Nat
  fullmoves : Nat
  zobrist : Nat

/-- Model of `str::split(' ')`: the (possibly empty) chunks between
space characters; on an empty string it yields one empty chunk, as the
Rust iterator does. -/
def splitSpacesAux : List Char → List Char → List (List Char)
  | [], acc => [acc.reverse]
  | c :: rest, acc =>
    if c = ' ' then acc.reverse :: splitSpacesAux rest []
    else splitSpacesAux rest (c :: acc)

def split_spaces (s : String) : List (List Char) := splitSpacesAux s.toList []

/-- Model of `load_fen`.  The Zobrist key tables enter as the parameter
`k` (see `ZKeys`).  Note: fen.rs as provided passes a `Phase` value in
the fourth slot of `Position::new`, whose type in the provided
position.rs is the score array; the two files are from different
revisions of the crate.  The claims about `load_fen` concern its error
behaviour only, so the score field of the returned Position is set to
zero here. -/
def load_fen (k : ZKeys) (fen : String) : PRes (Position × State) :=
  let fen_state := split_spaces fen
  match fen_state.get? 0 with
  | none => .err ("fen string is empty")
  | some fen_board =>
    (parse_fen_board fen_board).bind fun parsed =>
      let bb_sides := parsed.1
      let bb_pieces := parsed.2.1
      let board := parsed.2.2
      match fen_state.get? 1 with
      | none => .err ("fen string is missing fields")
      | some fen_side_to_move =>
        let side_lookup : Option Side :=
          if fen_side_to_move = ['w'] then some Side.white
          else if fen_side_to_move = ['b'] then some Side.black
          else none
        match side_lookup with
        | none => .err ("side to move is an invalid color")
        | some side_to_move =>
          match fen_state.get? 2 with
          | none => .err ("fen string is missing fields")
          | some fen_castle =>
            (parse_fen_castle fen_castle).bind fun castle_rights =>
              match fen_state.get? 3 with
              | none => .err ("fen string is missing fields")
              | some fen_en_passant =>
                (parse_fen_en_passant fen_en_passant).bind fun en_passant =>
                  match fen_state.get? 4 with
                  | none => .err ("fen string is missing fields")
                  | some fen_halfmoves =>
                    match parse_u16 fen_halfmoves with
                    | none => .err ("halmoves is not a number")
                    | some halfmoves =>
                      match fen_state.get? 5 with
                      | none => .err ("fen string is missing fields")
                      | some fen_fullmoves =>
                        match parse_u16 fen_fullmoves with
                        | none => .err ("fullmoves is not a number")
                        | some fullmoves =>
                          let position : Position :=
                            { bb_sides := bb_sides, bb_pieces := bb_pieces,
                              board := board, score := fun _ => 0 }
                          .ok (position,
                            { en_passant := en_passant, side_to_move := side_to_move,
                              castle_rights := castle_rights, halfmoves := halfmoves,
                              fullmoves := fullmoves,
                              zobrist := zobristNew k position castle_rights en_passant
                                side_to_move })

/-- An all-zero key table, used to instantiate `load_fen` at concrete
inputs. -/
def zeroZKeys : ZKeys := ⟨fun _ _ _ => 0, fun _ => 0, fun _ => 0, 0⟩

/-- C5 (behaviour at the failing input): a board field whose first rank
holds nine pawns drives the unchecked file counter to square index
7*8+8 = 64; the rank range check passes, and the bitboard shift plus the
`board[64]` write panic instead of producing the Err that the claim and
the code's own error string ("fen board contains too many files or
ranks") promise. -/
theorem c5_load_fen_nine_files_panics :
    load_fen zeroZKeys ("ppppppppp/8/8/8/8/8/8/8 w - - 0 1") = PRes.panic := rfl

/-- Sanity: ordinary malformed fields do produce Err values, and the
starting position parses. -/
theorem load_fen_err_and_ok_examples :
    (load_fen zeroZKeys ("")).isErr = true ∧
      (load_fen zeroZKeys ("xnbqkbnr/pppppppp/8/8/8/8/PPPPPPPP/RNBQKBNR w KQkq - 0 1")).isErr
        = true ∧
      (load_fen zeroZKeys ("rnbqkbnr/pppppppp/8/8/8/8/PPPPPPPP/RNBQKBNR z KQkq - 0 1")).isErr
        = true ∧
      (load_fen zeroZKeys ("rnbqkbnr/pppppppp/8/8/8/8/PPPPPPPP/RNBQKBNR w KXkq - 0 1")).isErr
        = true ∧
      (load_fen zeroZKeys ("rnbqkbnr/pppppppp/8/8/8/8/PPPPPPPP/RNBQKBNR w KQkq - x 1")).isErr
        = true ∧
      (load_fen zeroZKeys ("rnbqkbnr/pppppppp/8/8/8/8/PPPPPPPP/RNBQKBNR w KQkq - 0")).isErr
        = true ∧
      (load_fen zeroZKeys ("rnbqkbnr/pppppppp/8/8/8/8/PPPPPPPP/RNBQKBNR w KQkq - 0 1")).isOk
        = true := by
  refine ⟨rfl, rfl, rfl, rfl, rfl, rfl, rfl⟩

/-! ## Move encoding (src/mv.rs; the module is not among the provided
sources).  Modelled from the spec, section 3: a tagged variant carrying
from-square, to-square, piece type and flags; the variants are the ones
matched in search.rs (`Move::King | Rook | Pawn | Piece`, `EnPassant`,
`Promotion`, `DoublePawnPush`, `Castle`). -/

structure EncodedMove where
  from_sq : Nat
  to_sq : Nat
  pieceType : PieceType
  capture : Bool
deriving DecidableEq, Repr

structure PromotionMove where
  from_sq : Nat
  to_sq : Nat
  promoteType : PieceType
  capture : Bool
deriving DecidableEq, Repr

inductive Move where
  | king (m : EncodedMove)
  | rook (m : EncodedMove)
  | pawn (m : EncodedMove)
  | piece (m : EncodedMove)
  | enPassant (m : EncodedMove)
  | promotion (m : PromotionMove)
  | doublePawnPush (m : EncodedMove)
  | castle (c : Castle)
deriving DecidableEq, Repr

instance : Inhabited Move := ⟨Move.castle Castle.kingside⟩

/-- Whether a move carries the capture flag (en passant is a capture by
nature; double pushes and castling never capture). -/
def Move.isCaptureMv : Move → Bool
  | .king m | .rook m | .pawn m | .piece m => m.capture
  | .enPassant _ => true
  | .promotion pm => pm.capture
  | .doublePawnPush _ => false
  | .castle _ => false

/-! ## Search constants and tables (src/search.rs) -/

/-- Modelled from the spec: `MAX_EVAL` is a constant of eval.rs (not
under src/), the mate score bound; every claim uses it symbolically. -/
def MAX_EVAL : Int := 1000000

def PieceType.to_usize : PieceType → Nat
  | .pawn => 0
  | .knight => 1
  | .bishop => 2
  | .rook => 3
  | .queen => 4
  | .king => 5

/-- The `MVV_LVA` table of search.rs, row = victim, column = attacker. -/
def MVV_LVA (victim attacker : Nat) : Nat :=
  (([[15, 14, 13, 12, 11, 10],
     [25, 24, 23, 22, 21, 20],
     [35, 34, 33, 32, 31, 30],
     [45, 44, 43, 42, 41, 40],
     [55, 54, 53, 52, 51, 50],
     [0, 0, 0, 0, 0, 0]] : List (List Nat)).getD victim []).getD attacker 0

def TT_MOVE_SORT_VAL : Nat := 60
def KILLER_MOVE_1_SORT_VAL : Nat := 9
def KILLER_MOVE_2_SORT_VAL : Nat := 8

/-- The TT bound flags (tt.rs is not under src/; search.rs names the
variants Exact, Alpha and Beta, the spec maps Alpha to an upper bound and
Beta to a lower bound). -/
inductive TtFlag where
  | exact
  | alpha
  | beta
deriving DecidableEq, Repr

structure TtDetails where
  flag : TtFlag
  mv : Option Move
  eval : Int
deriving DecidableEq, Repr

/-- Model of `TtDetails::new()`: `(TtFlag::Alpha, None, -MAX_EVAL)`. -/
def TtDetails.new : TtDetails := ⟨TtFlag.alpha, none, -MAX_EVAL⟩

/-! ## Killer-move table (killer_mv_table.rs; not among the provided
sources).  Modelled from the spec, section 4.7: per ply two slots; an
insertion of a move that differs from slot 1 shifts slot 1 into slot 2.
search.rs indexes the table by the remaining depth. -/

abbrev KillerTable := List (Option Move × Option Move)

def ktNew (depth : Nat) : KillerTable := List.replicate depth (none, none)

def ktGetFirst (kt : KillerTable) (ply : Nat) : Option Move := (kt.getD ply (none, none)).1

def ktGetSecond (kt : KillerTable) (ply : Nat) : Option Move := (kt.getD ply (none, none)).2

def ktInsert (kt : KillerTable) (mv : Move) (ply : Nat) : KillerTable :=
  let slots := kt.getD ply (none, none)
  if slots.1 = some mv then kt
  else kt.set ply (some mv, slots.1)

/-! ## The engine interface

search.rs drives a `Game` (game.rs, move_gen, eval.rs — not among the
provided sources) and mutates a transposition table and killer table in
place.  The interface below carries exactly the operations search.rs
invokes; `drawScore` stands for `DRAW_SCORE.get(game.position().phase())`
and `evalFn` for `eval(game, &preprocessing, levels_searched)`.  Make and
unmake of ordinary moves: the spec (section 8) fixes that an unmake
restores the pre-make state bit for bit, so the interpreter resumes from
the saved state after each recursive search; the null-move unmake is kept
explicit because claim C8 speaks about it. -/

structure Engine (σ τ : Type) where
  depth : Nat
  maxDepth : Nat
  sideToMove : σ → Side
  inCheck : σ → Bool
  pseudoLegalMoves : σ → List Move
  pseudoLegalEscapeMoves : σ → List Move
  pseudoLegalLoudMoves : σ → List Move
  isLegal : σ → Move → Bool
  makeMove : σ → Move → σ × Option Piece
  isDraw : σ → Bool
  drawScore : σ → Int
  evalFn : σ → Nat → Int
  zobrist : σ → Nat
  enPassant : σ → Option Nat
  makeNullMove : σ → σ
  unmakeNullMove : σ → Option Nat → σ
  atSq : σ → Nat → Option Piece
  ttProbeVal : τ → Nat → Nat → Int → Int → Option Int
  ttProbeMove : τ → Nat → Nat → Option Move
  ttStore : τ → Nat → Nat → TtFlag → Int → Option Move → τ
  ttUpdateAge : τ → σ → τ

/-! ## Move scoring and selection (search.rs lines 90-241) -/

/-- The non-TT non-killer arm of the move scorers: MVV-LVA for captures,
promotion bonus, zero for quiet moves.  `at(to).unwrap()` is guarded in
the source by a debug assertion that a capture target is occupied; on a
state violating that assertion the model scores with a pawn victim where
the source would panic. -/
def scoreOfMv {σ τ : Type} (E : Engine σ τ) (g : σ) (mv : Move) : Nat :=
  match mv with
  | .king m | .rook m | .pawn m | .piece m =>
    if m.capture then
      let attacker := m.pieceType
      let capture := match E.atSq g m.to_sq with
        | some pc => pc.pieceType
        | none => PieceType.pawn
      MVV_LVA capture.to_usize attacker.to_usize
    else 0
  | .enPassant _ => MVV_LVA PieceType.pawn.to_usize PieceType.pawn.to_usize
  | .promotion pm =>
    if pm.capture then
      let capture := match E.atSq g pm.to_sq with
        | some pc => pc.pieceType
        | none => PieceType.pawn
      MVV_LVA pm.promoteType.to_usize PieceType.pawn.to_usize +
        MVV_LVA capture.to_usize PieceType.pawn.to_usize
    else MVV_LVA pm.promoteType.to_usize PieceType.pawn.to_usize
  | .doublePawnPush _ => 0
  | .castle _ => 0

/-- Model of `MoveFinder::score_moves`. -/
def score_moves {σ τ : Type} (E : Engine σ τ) (g : σ) (mv_list : List Move)
    (tt_mv : Option Move) : List Nat :=
  mv_list.map (fun mv => if tt_mv = some mv then TT_MOVE_SORT_VAL else scoreOfMv E g mv)

/-- Model of `MoveFinder::score_moves_with_killer_moves`. -/
def score_moves_with_killer_moves {σ τ : Type} (E : Engine σ τ) (g : σ)
    (mv_list : List Move) (tt_mv : Option Move) (kt : KillerTable) (ply : Nat) : List Nat :=
  let killer_mv_1 := ktGetFirst kt ply
  let killer_mv_2 := ktGetSecond kt ply
  mv_list.map (fun mv =>
    if tt_mv = some mv then TT_MOVE_SORT_VAL
    else if killer_mv_1 = some mv then KILLER_MOVE_1_SORT_VAL
    else if killer_mv_2 = some mv then KILLER_MOVE_2_SORT_VAL
    else scoreOfMv E g mv)

/-- Swap two list entries (Vec::swap; in range at every call site). -/
def mySwap {α : Type} (l : List α) (i j : Nat) : List α :=
  match l.get? i, l.get? j with
  | some a, some b => (l.set i b).set j a
  | _, _ => l

/-- The selection scan of `pick_move`: highest score wins, earliest index
on ties, starting from `j` with `rem` entries left to scan. -/
def pickBestFrom (scores : List Nat) : Nat → Nat → Nat → Nat → Nat
  | 0, _, _, best_idx => best_idx
  | rem + 1, j, best_score, best_idx =>
    let score := scores.getD j 0
    if score > best_score then pickBestFrom scores rem (j + 1) score j
    else pickBestFrom scores rem (j + 1) best_score best_idx

/-- Model of `MoveFinder::pick_move`: find the best-scored move in the
unsorted suffix, swap it to `start_idx` in both lists, and return it. -/
def pick_move (mvs : List Move) (scores : List Nat) (start_idx : Nat) :
    Move × List Move × List Nat :=
  let best_score := scores.getD start_idx 0
  let best_idx := pickBestFrom scores (mvs.length - start_idx) start_idx best_score start_idx
  let scores2 := mySwap scores start_idx best_idx
  let mvs2 := mySwap mvs start_idx best_idx
  (mvs2.getD start_idx default, mvs2, scores2)

/-! ## The search interpreter (search.rs lines 316-551)

One fuel-indexed recursion interprets `alpha_beta` (entry, its move
phase, its move loop) and `quiescence` (entry, its move loop); each
recursive call consumes one unit of fuel and exhaustion returns `none`.
The killer table and transposition table are threaded; after a child
search the loop resumes from the saved parent state, which is what the
Rust unmake produces (spec section 8). -/

inductive SearchReq (σ τ : Type) where
  | ab (g : σ) (depth : Nat) (alpha beta : Int) (levels : Nat)
      (kt : KillerTable) (tt : τ) (doNull : Bool)
  | abMoves (g : σ) (depth : Nat) (alpha beta : Int) (levels : Nat)
      (kt : KillerTable) (tt : τ) (doNull : Bool) (chk : Bool)
  | abLoop (g : σ) (depth : Nat) (beta : Int) (levels : Nat) (doNull chk : Bool)
      (mvs : List Move) (scores : List Nat) (i : Nat) (alpha : Int)
      (kt : KillerTable) (tt : τ) (foundPv legalAvail : Bool) (td : TtDetails)
  | q (g : σ) (alpha beta : Int) (levels : Nat) (kt : KillerTable) (tt : τ)
  | qLoop (g : σ) (beta : Int) (levels : Nat) (mvs : List Move) (scores : List Nat)
      (i : Nat) (alpha : Int) (kt : KillerTable) (tt : τ)

def runSearch {σ τ : Type} (E : Engine σ τ) : Nat → SearchReq σ τ →
    Option (Int × τ × KillerTable)
  | 0, _ => none
  | f + 1, req =>
    match req with
    | .ab g depth alpha beta levels kt tt doNull =>
      if depth = 0 then runSearch E f (.q g alpha beta levels kt tt)
      else
        match E.ttProbeVal tt (E.zobrist g) depth alpha beta with
        | some tt_val => some (tt_val, tt, kt)
        | none =>
          let chk := E.inCheck g
          if doNull = true ∧ chk = false ∧ 2 < depth then
            let en_passant_option := E.enPassant g
            let g1 := E.makeNullMove g
            match runSearch E f
                (.ab g1 (depth - 1 - 2) (-beta) (-beta + 1) (levels + 1) kt tt false) with
            | none => none
            | some (v, tt1, kt1) =>
              let eval := -v
              let g2 := E.unmakeNullMove g1 en_passant_option
              if eval ≥ beta then some (eval, tt1, kt1)
              else runSearch E f (.abMoves g2 depth alpha beta levels kt1 tt1 doNull chk)
          else runSearch E f (.abMoves g depth alpha beta levels kt tt doNull chk)
    | .abMoves g depth alpha beta levels kt tt doNull chk =>
      let mvs := if chk then E.pseudoLegalEscapeMoves g else E.pseudoLegalMoves g
      let tt_mv := E.ttProbeMove tt (E.zobrist g) depth
      let scores := score_moves_with_killer_moves E g mvs tt_mv kt depth
      runSearch E f
        (.abLoop g depth beta levels doNull chk mvs scores 0 alpha kt tt false false
          TtDetails.new)
    | .abLoop g depth beta levels doNull chk mvs scores i alpha kt tt foundPv legalAvail td =>
      if i < mvs.length then
        match pick_move mvs scores i with
        | (mv, mvs1, scores1) =>
          if E.isLegal g mv = false then
            runSearch E f
              (.abLoop g depth beta levels doNull chk mvs1 scores1 (i + 1) alpha kt tt
                foundPv legalAvail td)
          else
            match E.makeMove g mv with
            | (g1, capture) =>
              let evalR : Option (Int × τ × KillerTable) :=
                if E.isDraw g1 then some (E.drawScore g1, tt, kt)
                else if foundPv = false then
                  match runSearch E f
                      (.ab g1 (depth - 1) (-beta) (-alpha) (levels + 1) kt tt false) with
                  | none => none
                  | some (v, tt1, kt1) => some (-v, tt1, kt1)
                else
                  match runSearch E f
                      (.ab g1 (depth - 1) (-alpha - 1) (-alpha) (levels + 1) kt tt
                        (!doNull)) with
                  | none => none
                  | some (v, tt1, kt1) =>
                    let score := -v
                    if alpha < score ∧ score < beta then
                      match runSearch E f
                          (.ab g1 (depth - 1) (-beta) (-alpha) (levels + 1) kt1 tt1
                            (!doNull)) with
                      | none => none
                      | some (v2, tt2, kt2) => some (-v2, tt2, kt2)
                    else some (score, tt1, kt1)
              match evalR with
              | none => none
              | some (eval, tt1, kt1) =>
                if eval ≥ beta then
                  let kt2 := if capture = none then ktInsert kt1 mv depth else kt1
                  some (eval,
                    E.ttStore tt1 (E.zobrist g) depth TtFlag.beta eval (some mv), kt2)
                else if eval > alpha then
                  runSearch E f
                    (.abLoop g depth beta levels doNull chk mvs1 scores1 (i + 1) eval kt1
                      tt1 true true ⟨TtFlag.exact, some mv, eval⟩)
                else if eval > td.eval then
                  runSearch E f
                    (.abLoop g depth beta levels doNull chk mvs1 scores1 (i + 1) alpha kt1
                      tt1 foundPv true ⟨TtFlag.alpha, none, eval⟩)
                else
                  runSearch E f
                    (.abLoop g depth beta levels doNull chk mvs1 scores1 (i + 1) alpha kt1
                      tt1 foundPv true td)
      else
        if legalAvail = false ∧ chk = true then some (-(MAX_EVAL - (levels : Int)), tt, kt)
        else if legalAvail = false ∧ E.drawScore g > alpha then
          some (E.drawScore g, tt, kt)
        else some (alpha, E.ttStore tt (E.zobrist g) depth td.flag td.eval td.mv, kt)
    | .q g alpha beta levels kt tt =>
      let chk := E.inCheck g
      if levels = E.maxDepth then some (E.evalFn g levels, tt, kt)
      else if chk = true then runSearch E f (.ab g 1 alpha beta levels kt tt false)
      else
        let stand_pat := E.evalFn g levels
        if stand_pat ≥ beta then some (stand_pat, tt, kt)
        else
          let alpha1 := if stand_pat > alpha then stand_pat else alpha
          let mvs := E.pseudoLegalLoudMoves g
          let scores := score_moves E g mvs none
          runSearch E f (.qLoop g beta levels mvs scores 0 alpha1 kt tt)
    | .qLoop g beta levels mvs scores i alpha kt tt =>
      if i < mvs.length then
        match pick_move mvs scores i with
        | (mv, mvs1, scores1) =>
          if E.isLegal g mv = false then
            runSearch E f (.qLoop g beta levels mvs1 scores1 (i + 1) alpha kt tt)
          else
            match E.makeMove g mv with
            | (g1, _capture) =>
              let evalR : Option (Int × τ × KillerTable) :=
                if E.isDraw g1 then some (E.drawScore g1, tt, kt)
                else
                  match runSearch E f (.q g1 (-beta) (-alpha) (levels + 1) kt tt) with
                  | none => none
                  | some (v, tt1, kt1) => some (-v, tt1, kt1)
              match evalR with
              | none => none
              | some (eval, tt1, kt1) =>
                if eval ≥ beta then some (eval, tt1, kt1)
                else if eval > alpha then
                  runSearch E f (.qLoop g beta levels mvs1 scores1 (i + 1) eval kt1 tt1)
                else runSearch E f (.qLoop g beta levels mvs1 scores1 (i + 1) alpha kt1 tt1)
      else some (alpha, tt, kt)

/-- Model of `MoveFinder::alpha_beta`. -/
def alphaBeta {σ τ : Type} (E : Engine σ τ) (fuel : Nat) (g : σ) (depth : Nat)
    (alpha beta : Int) (levels : Nat) (kt : KillerTable) (tt : τ) (doNull : Bool) :
    Option (Int × τ × KillerTable) :=
  runSearch E fuel (.ab g depth alpha beta levels kt tt doNull)

/-- The move phase of `alpha_beta` (generation, scoring, the loop and the
mate/stalemate/store tail), entered after the TT probe and the null-move
section. -/
def abMovesPhase {σ τ : Type} (E : Engine σ τ) (fuel : Nat) (g : σ) (depth : Nat)
    (alpha beta : Int) (levels : Nat) (kt : KillerTable) (tt : τ) (doNull chk : Bool) :
    Option (Int × τ × KillerTable) :=
  runSearch E fuel (.abMoves g depth alpha beta levels kt tt doNull chk)

/-- The move loop of `alpha_beta` (lines 382-452 plus the tail). -/
def abLoopPhase {σ τ : Type} (E : Engine σ τ) (fuel : Nat) (g : σ) (depth : Nat)
    (beta : Int) (levels : Nat) (doNull chk : Bool) (mvs : List Move) (scores : List Nat)
    (i : Nat) (alpha : Int) (kt : KillerTable) (tt : τ) (foundPv legalAvail : Bool)
    (td : TtDetails) : Option (Int × τ × KillerTable) :=
  runSearch E fuel (.abLoop g depth beta levels doNull chk mvs scores i alpha kt tt
    foundPv legalAvail td)

/-- Model of `MoveFinder::quiescence`. -/
def quiescence {σ τ : Type} (E : Engine σ τ) (fuel : Nat) (g : σ) (alpha beta : Int)
    (levels : Nat) (kt : KillerTable) (tt : τ) : Option (Int × τ × KillerTable) :=
  runSearch E fuel (.q g alpha beta levels kt tt)

/-! ## MoveFinder::get (search.rs lines 243-314) -/

/-- The root move loop of `get` (lines 265-301): tracks the running alpha
and the best move; a legal move that fails to raise alpha still becomes
the best move when none is recorded yet. -/
def getLoopRun {σ τ : Type} (E : Engine σ τ) : Nat → σ → List Move → List Nat → Nat →
    Int → Int → Option Move → KillerTable → τ → Option (Int × Option Move × τ × KillerTable)
  | 0, _, _, _, _, _, _, _, _, _ => none
  | f + 1, g, mvs, scores, i, alpha, beta, best, kt, tt =>
    if i < mvs.length then
      match pick_move mvs scores i with
      | (mv, mvs1, scores1) =>
        if E.isLegal g mv = false then
          getLoopRun E f g mvs1 scores1 (i + 1) alpha beta best kt tt
        else
          let evalR : Option (Int × τ × KillerTable) :=
            if E.isDraw (E.makeMove g mv).1 then some (E.drawScore (E.makeMove g mv).1, tt, kt)
            else
              match runSearch E f
                  (.ab (E.makeMove g mv).1 (E.depth - 1) (-beta) (-alpha) 1 kt tt false) with
              | none => none
              | some (v, tt1, kt1) => some (-v, tt1, kt1)
          match evalR with
          | none => none
          | some (eval, tt1, kt1) =>
            if eval > alpha then getLoopRun E f g mvs1 scores1 (i + 1) eval beta (some mv) kt1 tt1
            else if best = none then
              getLoopRun E f g mvs1 scores1 (i + 1) alpha beta (some mv) kt1 tt1
            else getLoopRun E f g mvs1 scores1 (i + 1) alpha beta best kt1 tt1
    else some (alpha, best, tt, kt)

/-- Model of `MoveFinder::get`.  The return type records that
`best_move.unwrap()` can panic: `.ok` carries `Some((mv, score))`, and
`.panic` stands for the unwrap of `None`.  The TT store at line 303 has
already happened when the unwrap runs, so the returned table reflects it
in both cases. -/
def getSearch {σ τ : Type} (E : Engine σ τ) (fuel : Nat) (g : σ) (tt : τ) :
    Option (PRes (Move × Int) × τ) :=
  let tt0 := E.ttUpdateAge tt g
  let alpha : Int := -MAX_EVAL
  let beta : Int := MAX_EVAL
  let stm := E.sideToMove g
  let mvs := if E.inCheck g = false then E.pseudoLegalMoves g else E.pseudoLegalEscapeMoves g
  let kt := ktNew E.depth
  let tt_mv := E.ttProbeMove tt0 (E.zobrist g) E.depth
  let scores := score_moves E g mvs tt_mv
  match getLoopRun E fuel g mvs scores 0 alpha beta none kt tt0 with
  | none => none
  | some (alphaF, best, tt1, _ktF) =>
    let tt2 := E.ttStore tt1 (E.zobrist g) E.depth TtFlag.exact alphaF best
    match best with
    | some mv => some (.ok (mv, if stm = Side.white then alphaF else -alphaF), tt2)
    | none => some (.panic, tt2)

/-! ## The two readings of the PVS window rule (claim C4) -/

/-- Written from the words of claim C4, not from the source: the first
legal move of a node is searched with the full window; every later legal
move is first searched with the zero window `(-alpha-1, -alpha)` and
re-searched with the full window exactly when the zero-window score lies
strictly between alpha and beta.  Everything else (draw shortcut, cutoff,
bookkeeping, the tail) follows the source loop. -/
def abLoopClaimPVS {σ τ : Type} (E : Engine σ τ) : Nat → σ → Nat → Int → Nat → Bool →
    Bool → List Move → List Nat → Nat → Int → KillerTable → τ → Bool → Bool → TtDetails →
    Option (Int × τ × KillerTable)
  | 0, _, _, _, _, _, _, _, _, _, _, _, _, _, _, _ => none
  | f + 1, g, depth, beta, levels, doNull, chk, mvs, scores, i, alpha, kt, tt,
      firstLegalDone, legalAvail, td =>
    if i < mvs.length then
      match pick_move mvs scores i with
      | (mv, mvs1, scores1) =>
        if E.isLegal g mv = false then
          abLoopClaimPVS E f g depth beta levels doNull chk mvs1 scores1 (i + 1) alpha kt tt
            firstLegalDone legalAvail td
        else
          match E.makeMove g mv with
          | (g1, capture) =>
            let evalR : Option (Int × τ × KillerTable) :=
              if E.isDraw g1 then some (E.drawScore g1, tt, kt)
              else if firstLegalDone = false then
                match runSearch E f
                    (.ab g1 (depth - 1) (-beta) (-alpha) (levels + 1) kt tt false) with
                | none => none
                | some (v, tt1, kt1) => some (-v, tt1, kt1)
              else
                match runSearch E f
                    (.ab g1 (depth - 1) (-alpha - 1) (-alpha) (levels + 1) kt tt
                      (!doNull)) with
                | none => none
                | some (v, tt1, kt1) =>
                  let score := -v
                  if alpha < score ∧ score < beta then
                    match runSearch E f
                        (.ab g1 (depth - 1) (-beta) (-alpha) (levels + 1) kt1 tt1
                          (!doNull)) with
                    | none => none
                    | some (v2, tt2, kt2) => some (-v2, tt2, kt2)
                  else some (score, tt1, kt1)
            match evalR with
            | none => none
            | some (eval, tt1, kt1) =>
              if eval ≥ beta then
                let kt2 := if capture = none then ktInsert kt1 mv depth else kt1
                some (eval, E.ttStore tt1 (E.zobrist g) depth TtFlag.beta eval (some mv), kt2)
              else if eval > alpha then
                abLoopClaimPVS E f g depth beta levels doNull chk mvs1 scores1 (i + 1) eval
                  kt1 tt1 true true ⟨TtFlag.exact, some mv, eval⟩
              else if eval > td.eval then
                abLoopClaimPVS E f g depth beta levels doNull chk mvs1 scores1 (i + 1) alpha
                  kt1 tt1 true true ⟨TtFlag.alpha, none, eval⟩
              else
                abLoopClaimPVS E f g depth beta levels doNull chk mvs1 scores1 (i + 1) alpha
                  kt1 tt1 true true td
    else
      if legalAvail = false ∧ chk = true then some (-(MAX_EVAL - (levels : Int)), tt, kt)
      else if legalAvail = false ∧ E.drawScore g > alpha then some (E.drawScore g, tt, kt)
      else some (alpha, E.ttStore tt (E.zobrist g) depth td.flag td.eval td.mv, kt)

/-- The corrected reading of the window rule: with `alpha0` the alpha the
node was entered with, a move is searched with the full window exactly
while `alpha = alpha0`, i.e. while no earlier move of this node has
raised alpha.  The loop is otherwise the source loop. -/
def abLoopRoute {σ τ : Type} (E : Engine σ τ) : Nat → σ → Nat → Int → Nat → Bool →
    Bool → List Move → List Nat → Nat → Int → Int → KillerTable → τ → Bool → TtDetails →
    Option (Int × τ × KillerTable)
  | 0, _, _, _, _, _, _, _, _, _, _, _, _, _, _, _ => none
  | f + 1, g, depth, beta, levels, doNull, chk, mvs, scores, i, alpha0, alpha, kt, tt,
      legalAvail, td =>
    if i < mvs.length then
      match pick_move mvs scores i with
      | (mv, mvs1, scores1) =>
        if E.isLegal g mv = false then
          abLoopRoute E f g depth beta levels doNull chk mvs1 scores1 (i + 1) alpha0 alpha
            kt tt legalAvail td
        else
          match E.makeMove g mv with
          | (g1, capture) =>
            let evalR : Option (Int × τ × KillerTable) :=
              if E.isDraw g1 then some (E.drawScore g1, tt, kt)
              else if alpha = alpha0 then
                match runSearch E f
                    (.ab g1 (depth - 1) (-beta) (-alpha) (levels + 1) kt tt false) with
                | none => none
                | some (v, tt1, kt1) => some (-v, tt1, kt1)
              else
                match runSearch E f
                    (.ab g1 (depth - 1) (-alpha - 1) (-alpha) (levels + 1) kt tt
                      (!doNull)) with
                | none => none
                | some (v, tt1, kt1) =>
                  let score := -v
                  if alpha < score ∧ score < beta then
                    match runSearch E f
                        (.ab g1 (depth - 1) (-beta) (-alpha) (levels + 1) kt1 tt1
                          (!doNull)) with
                    | none => none
                    | some (v2, tt2, kt2) => some (-v2, tt2, kt2)
                  else some (score, tt1, kt1)
            match evalR with
            | none => none
            | some (eval, tt1, kt1) =>
              if eval ≥ beta then
                let kt2 := if capture = none then ktInsert kt1 mv depth else kt1
                some (eval, E.ttStore tt1 (E.zobrist g) depth TtFlag.beta eval (some mv), kt2)
              else if eval > alpha then
                abLoopRoute E f g depth beta levels doNull chk mvs1 scores1 (i + 1) alpha0
                  eval kt1 tt1 true ⟨TtFlag.exact, some mv, eval⟩
              else if eval > td.eval then
                abLoopRoute E f g depth beta levels doNull chk mvs1 scores1 (i + 1) alpha0
                  alpha kt1 tt1 true ⟨TtFlag.alpha, none, eval⟩
              else
                abLoopRoute E f g depth beta levels doNull chk mvs1 scores1 (i + 1) alpha0
                  alpha kt1 tt1 true td
    else
      if legalAvail = false ∧ chk = true then some (-(MAX_EVAL - (levels : Int)), tt, kt)
      else if legalAvail = false ∧ E.drawScore g > alpha then some (E.drawScore g, tt, kt)
      else some (alpha, E.ttStore tt (E.zobrist g) depth td.flag td.eval td.mv, kt)

/-! ## A concrete transposition table and concrete engines

tt.rs is not among the provided sources.  Modelled from the spec,
section 4.6: entries are keyed by the Zobrist hash; `probe_val` answers
only from an entry at sufficient depth whose bound settles the window
(`Exact` always, a lower bound `Beta` when it meets beta, an upper bound
`Alpha` when it stays below alpha); `probe_move` returns the stored move
of the keyed entry; `store` writes the entry.  Collisions, table size and
ageing are irrelevant to every claim, so the model keeps a plain list and
always replaces on store. -/

structure TtEntry where
  key : Nat
  depth : Nat
  flag : TtFlag
  score : Int
  mv : Option Move
deriving DecidableEq, Repr

abbrev ModelTT := List TtEntry

def mtProbeVal (tt : ModelTT) (key depth : Nat) (alpha beta : Int) : Option Int :=
  match tt.find? (fun e => e.key == key) with
  | none => none
  | some e =>
    if depth ≤ e.depth then
      match e.flag with
      | .exact => some e.score
      | .beta => if e.score ≥ beta then some e.score else none
      | .alpha => if e.score ≤ alpha then some e.score else none
    else none

def mtProbeMove (tt : ModelTT) (key _depth : Nat) : Option Move :=
  match tt.find? (fun e => e.key == key) with
  | some e => e.mv
  | none => none

def mtStore (tt : ModelTT) (key depth : Nat) (flag : TtFlag) (score : Int)
    (mv : Option Move) : ModelTT :=
  match tt.find? (fun e => e.key == key) with
  | none => tt ++ [⟨key, depth, flag, score, mv⟩]
  | some _ => tt.map (fun e2 => if e2.key == key then ⟨key, depth, flag, score, mv⟩ else e2)

/-- A base engine over states `σ = Nat` with no moves anywhere; the
concrete engines of the theorems override individual fields. -/
def baseEngine : Engine Nat ModelTT :=
  { depth := 3
    maxDepth := 5
    sideToMove := fun _ => Side.white
    inCheck := fun _ => false
    pseudoLegalMoves := fun _ => []
    pseudoLegalEscapeMoves := fun _ => []
    pseudoLegalLoudMoves := fun _ => []
    isLegal := fun _ _ => true
    makeMove := fun g _ => (g, none)
    isDraw := fun _ => false
    drawScore := fun _ => 0
    evalFn := fun _ _ => 0
    zobrist := fun g => g
    enPassant := fun _ => none
    makeNullMove := fun g => g
    unmakeNullMove := fun g _ => g
    atSq := fun _ _ => none
    ttProbeVal := fun tt key depth a b => mtProbeVal tt key depth a b
    ttProbeMove := fun tt key depth => mtProbeMove tt key depth
    ttStore := fun tt key depth fl sc mv => mtStore tt key depth fl sc mv
    ttUpdateAge := fun tt _ => tt }

/-- A quiet queen promotion (from a8-file push, no capture). -/
def promoMv : Move := Move.promotion ⟨8, 0, PieceType.queen, false⟩

/-- A quiet king move used as an ordinary legal move in scenarios. -/
def kingMv1 : Move := Move.king ⟨4, 5, PieceType.king, false⟩

/-- A second quiet king move. -/
def kingMv2 : Move := Move.king ⟨4, 3, PieceType.king, false⟩

/-- Engine for claim C3: at state 0 the only move is the quiet promotion
`promoMv`; making it reaches state 1, a drawn state whose draw score 100
clears any small beta, forcing a beta cutoff on a non-capture. -/
def EngC3 : Engine Nat ModelTT :=
  { baseEngine with
    pseudoLegalMoves := fun g => if g == 0 then [promoMv] else []
    makeMove := fun g _ => if g == 0 then (1, none) else (g, none)
    isDraw := fun g => g == 1
    drawScore := fun g => if g == 1 then 100 else 0 }

/-- Engine for claim C4: at state 0 two legal king moves; `kingMv1`
reaches the drawn state 1 (draw score 0), `kingMv2` reaches state 2,
a stalemate state with no moves and draw score -5. -/
def EngC4 : Engine Nat ModelTT :=
  { baseEngine with
    pseudoLegalMoves := fun g => if g == 0 then [kingMv1, kingMv2] else []
    makeMove := fun g mv =>
      if g == 0 then (if mv == kingMv1 then (1, none) else (2, none)) else (g, none)
    isDraw := fun g => g == 1
    drawScore := fun g => if g == 2 then -5 else 0 }

/-- Engine for claim C9: state 0 is in check with the single escape move
`kingMv1` into the drawn state 1. -/
def EngC9 : Engine Nat ModelTT :=
  { baseEngine with
    inCheck := fun g => g == 0
    pseudoLegalEscapeMoves := fun g => if g == 0 then [kingMv1] else []
    makeMove := fun g _ => if g == 0 then (1, none) else (g, none)
    isDraw := fun g => g == 1 }

/-- C1: the claim reads `get` as returning `None` when the side to move
has no legal move.  The code instead stores a default Exact entry and
then panics at `best_move.unwrap()` (search.rs line 311): at an engine
whose root has no moves at all, the model of `get` yields the panic, not
a clean `None`; at an engine with one legal move it yields `Some` of the
move and its score, as the claim's second half says. -/
theorem c1_get_no_legal_moves_panics :
    getSearch baseEngine 5 0 [] =
      some (PRes.panic, [⟨0, 3, TtFlag.exact, -1000000, none⟩]) ∧
    getSearch EngC3 9 0 [] =
      some (PRes.ok (promoMv, 100), [⟨0, 3, TtFlag.exact, 100, some promoMv⟩]) := by
  exact ⟨rfl, rfl⟩

/-- C2 counterexample: a stalemate node (no legal move, not in check,
depth 1) whose draw score is 0, entered with alpha = 5, returns alpha
= 5 — not the draw score — because search.rs line 456 only returns the
draw score when it exceeds alpha; the node moreover stores the default
`(Alpha, -MAX_EVAL)` entry. -/
theorem c2_stalemate_alpha_counterexample :
    alphaBeta baseEngine 3 0 1 5 10 1 (ktNew 3) [] false =
      some (5, [⟨0, 1, TtFlag.alpha, -1000000, none⟩], ktNew 3) ∧
    baseEngine.drawScore 0 = 0 ∧ (5 : Int) ≠ 0 := by
  refine ⟨rfl, rfl, by decide⟩

/-- C3 counterexample: `promoMv` is a non-capturing promotion, and a
beta cutoff on it inserts it into the killer table (slot 1 of ply 1),
because the guard at search.rs line 437 checks only `capture.is_none()`
and promotions capture nothing here. -/
theorem c3_promotion_inserted_into_killers :
    alphaBeta EngC3 3 0 1 0 50 1 (ktNew 3) [] false =
      some (100, [⟨0, 1, TtFlag.beta, 100, some promoMv⟩],
        [(none, none), (some promoMv, none), (none, none)]) ∧
    promoMv = Move.promotion ⟨8, 0, PieceType.queen, false⟩ ∧
    Move.isCaptureMv promoMv = false := by
  refine ⟨rfl, rfl, rfl⟩

/-- C4 counterexample: the source keys the window choice on `found_pv`,
which is set only when a move raises alpha — not on "first legal move".
At `EngC4` the first legal move scores exactly alpha, so the source
searches the second move with the full window too and returns 5, while
the claim's route zero-window-searches the second move, pollutes the TT
with the child's default entry, has its re-search answered by that entry
and returns MAX_EVAL = 1000000. -/
theorem c4_found_pv_vs_first_legal_counterexample :
    (abLoopPhase EngC4 9 0 2 10 1 false false [kingMv1, kingMv2] [0, 0] 0 0
        (ktNew 3) [] false false TtDetails.new).map (fun r => r.1) = some 5 ∧
    (abLoopClaimPVS EngC4 9 0 2 10 1 false false [kingMv1, kingMv2] [0, 0] 0 0
        (ktNew 3) [] false false TtDetails.new).map (fun r => r.1) = some 1000000 ∧
    (5 : Int) ≠ 1000000 := by
  refine ⟨rfl, rfl, by decide⟩

/-- C9 counterexample: when the side to move is in check, quiescence
delegates to `alpha_beta` at depth 1 (search.rs lines 494-504), which
stores into the transposition table: at `EngC9` a quiescence call on the
empty table returns a non-empty table. -/
theorem c9_quiescence_in_check_stores :
    quiescence EngC9 5 0 (-3) 7 1 (ktNew 3) [] =
      some (0, [⟨0, 1, TtFlag.exact, 0, some kingMv1⟩], ktNew 3) ∧
    ([⟨0, 1, TtFlag.exact, 0, some kingMv1⟩] : ModelTT) ≠ ([] : ModelTT) := by
  refine ⟨rfl, by decide⟩

/-! ## Properties of pick_move: it permutes within the list, so every
selected move and every move of the updated list come from the input. -/

theorem getD_mem_of_lt {α : Type} {l : List α} {i : Nat} {d : α} (h : i < l.length) :
    l.getD i d ∈ l := by
  rw [List.getD_eq_getElem l d h]
  exact List.getElem_mem h

theorem mySwap_length {α : Type} (l : List α) (i j : Nat) :
    (mySwap l i j).length = l.length := by
  unfold mySwap
  rcases hi : l.get? i with _ | a <;> rcases hj : l.get? j with _ | b <;>
    simp [List.length_set]

theorem mySwap_mem {α : Type} {l : List α} {i j : Nat} {x : α}
    (hx : x ∈ mySwap l i j) : x ∈ l := by
  unfold mySwap at hx
  rcases hi : l.get? i with _ | a <;> rcases hj : l.get? j with _ | b <;>
      rw [hi, hj] at hx
  · exact hx
  · exact hx
  · exact hx
  · rcases List.mem_or_eq_of_mem_set hx with hx1 | hx1
    · rcases List.mem_or_eq_of_mem_set hx1 with hx2 | hx2
      · exact hx2
      · subst hx2
        obtain ⟨hlt, hget⟩ := List.get?_eq_some.mp hj
        exact hget ▸ List.get_mem l j hlt
    · subst hx1
      obtain ⟨hlt, hget⟩ := List.get?_eq_some.mp hi
      exact hget ▸ List.get_mem l i hlt

theorem pick_move_fst_mem {mvs : List Move} {scores : List Nat} {i : Nat}
    (h : i < mvs.length) : (pick_move mvs scores i).1 ∈ mvs := by
  unfold pick_move
  have hlen : i < (mySwap mvs i
      (pickBestFrom scores (mvs.length - i) i (scores.getD i 0) i)).length := by
    rw [mySwap_length]; exact h
  exact mySwap_mem (getD_mem_of_lt hlen)

theorem pick_move_mvs_mem {mvs : List Move} {scores : List Nat} {i : Nat} {x : Move}
    (hx : x ∈ (pick_move mvs scores i).2.1) : x ∈ mvs := by
  unfold pick_move at hx
  exact mySwap_mem hx

theorem pick_move_mvs_length (mvs : List Move) (scores : List Nat) (i : Nat) :
    (pick_move mvs scores i).2.1.length = mvs.length := by
  unfold pick_move
  exact mySwap_length ..

/-! ## Claim C2: the no-legal-move tail of alpha_beta -/

/-- The move loop over a list all of whose moves are illegal reaches the
tail of search.rs lines 454-476 untouched: checkmate score if in check,
the draw score only when it beats alpha, otherwise alpha together with
the store of the running `TtDetails`. -/
theorem abLoop_all_illegal {σ τ : Type} (E : Engine σ τ) :
    ∀ (fuel : Nat) (g : σ) (depth : Nat) (beta : Int) (levels : Nat) (doNull chk : Bool)
      (mvs : List Move) (scores : List Nat) (i : Nat) (alpha : Int) (kt : KillerTable)
      (tt : τ) (foundPv legalAvail : Bool) (td : TtDetails),
      (∀ mv ∈ mvs, E.isLegal g mv = false) →
      mvs.length - i < fuel →
      runSearch E fuel (.abLoop g depth beta levels doNull chk mvs scores i alpha kt tt
          foundPv legalAvail td) =
        (if legalAvail = false ∧ chk = true then
          some (-(MAX_EVAL - (levels : Int)), tt, kt)
         else if legalAvail = false ∧ E.drawScore g > alpha then
          some (E.drawScore g, tt, kt)
         else some (alpha, E.ttStore tt (E.zobrist g) depth td.flag td.eval td.mv, kt)) := by
  intro fuel
  induction fuel with
  | zero =>
    intro g depth beta levels doNull chk mvs scores i alpha kt tt foundPv legalAvail td
      hall hlen
    omega
  | succ f ih =>
    intro g depth beta levels doNull chk mvs scores i alpha kt tt foundPv legalAvail td
      hall hlen
    by_cases hi : i < mvs.length
    · rcases hp : pick_move mvs scores i with ⟨mv, mvs1, scores1⟩
      have hmv : mv ∈ mvs := by
        have := @pick_move_fst_mem mvs scores i hi
        rw [hp] at this
        exact this
      have hleg : E.isLegal g mv = false := hall mv hmv
      simp only [runSearch, if_pos hi, hp, hleg]
      have hall1 : ∀ x ∈ mvs1, E.isLegal g x = false := by
        intro x hx
        refine hall x (@pick_move_mvs_mem mvs scores i x ?_)
        rw [hp]
        exact hx
      have hlen1 : mvs1.length - (i + 1) < f := by
        have := pick_move_mvs_length mvs scores i
        rw [hp] at this
        simp only at this
        omega
      exact ih g depth beta levels doNull chk mvs1 scores1 (i + 1) alpha kt tt foundPv
        legalAvail td hall1 hlen1
    · simp only [runSearch, if_neg hi]

/-- C2 (amended): at an `alpha_beta` node with depth ≥ 1, a missed TT
probe, the null-move section not taken, and no legal move, the result is
`-(MAX_EVAL - levels)` when in check; otherwise the draw score is
returned ONLY when it exceeds alpha — when it does not, the node returns
alpha unchanged and stores the untouched default `(Alpha, -MAX_EVAL,
None)` details (search.rs lines 454-476; the claim's "regardless of the
current alpha and beta" fails for the stalemate arm). -/
theorem c2_no_legal_moves_amended {σ τ : Type} (E : Engine σ τ) (g : σ) (depth : Nat)
    (alpha beta : Int) (levels : Nat) (kt : KillerTable) (tt : τ) (doNull : Bool)
    (fuel : Nat) (hdepth : depth ≠ 0)
    (hprobe : E.ttProbeVal tt (E.zobrist g) depth alpha beta = none)
    (hnull : ¬(doNull = true ∧ E.inCheck g = false ∧ 2 < depth))
    (hnolegal : ∀ mv ∈ (if E.inCheck g then E.pseudoLegalEscapeMoves g
        else E.pseudoLegalMoves g), E.isLegal g mv = false)
    (hfuel : (if E.inCheck g then E.pseudoLegalEscapeMoves g
        else E.pseudoLegalMoves g).length + 2 < fuel) :
    alphaBeta E fuel g depth alpha beta levels kt tt doNull =
      (if E.inCheck g = true then some (-(MAX_EVAL - (levels : Int)), tt, kt)
       else if E.drawScore g > alpha then some (E.drawScore g, tt, kt)
       else some (alpha,
        E.ttStore tt (E.zobrist g) depth TtFlag.alpha (-MAX_EVAL) none, kt)) := by
  match fuel, hfuel with
  | f + 1, hfuel =>
  unfold alphaBeta
  simp only [runSearch, if_neg hdepth, hprobe]
  rw [if_neg hnull]
  match f, hfuel with
  | f1 + 1, hfuel =>
  simp only [runSearch]
  rw [abLoop_all_illegal E f1 g depth beta levels doNull (E.inCheck g) _ _ 0 alpha kt tt
    false false TtDetails.new hnolegal (by omega)]
  simp only [TtDetails.new, eq_self_iff_true, true_and]

/-- Witness for C2's amended theorem: the stalemate engine with draw
score 0 entered at alpha = -1 returns the draw score 0. -/
theorem c2_no_legal_moves_amended_witness :
    alphaBeta baseEngine 4 0 1 (-1) 10 1 (ktNew 3) [] false = some (0, [], ktNew 3) :=
  (c2_no_legal_moves_amended baseEngine 0 1 (-1) 10 1 (ktNew 3) [] false 4
    (by decide) rfl (by decide)
    (fun mv h => absurd h (by
      rw [show (if baseEngine.inCheck 0 then baseEngine.pseudoLegalEscapeMoves 0
        else baseEngine.pseudoLegalMoves 0) = ([] : List Move) from rfl]
      exact List.not_mem_nil mv))
    (by decide)).trans (by decide)

/-! ## Claim C8: the null-move section of alpha_beta (lines 338-358) -/

/-- C8: null-move pruning runs exactly when `allow_null` is set, the
side to move is not in check and depth > 2; it then recurses at
`depth - 3` (in the source `depth - 1 - R` with R = 2) on the
null-moved state with window `(-beta, -beta+1)` and chained nulls
disallowed, returns the negated score when it reaches beta, and
otherwise proceeds to the move phase on the state restored by the
null-move unmake, which receives the saved en-passant state
(`hlaw` is that round-trip, spec section 8).  When any of the three
conditions fails the move phase runs directly. -/
theorem c8_null_move_pruning {σ τ : Type} (E : Engine σ τ) (g : σ) (depth : Nat)
    (alpha beta : Int) (levels : Nat) (kt : KillerTable) (tt : τ) (f : Nat)
    (hdepth : depth ≠ 0)
    (hprobe : E.ttProbeVal tt (E.zobrist g) depth alpha beta = none)
    (hlaw : E.unmakeNullMove (E.makeNullMove g) (E.enPassant g) = g) :
    (E.inCheck g = false ∧ 2 < depth →
      alphaBeta E (f + 1) g depth alpha beta levels kt tt true =
        match alphaBeta E f (E.makeNullMove g) (depth - 3) (-beta) (-beta + 1)
            (levels + 1) kt tt false with
        | none => none
        | some (v, tt1, kt1) =>
          if -v ≥ beta then some (-v, tt1, kt1)
          else abMovesPhase E f g depth alpha beta levels kt1 tt1 true false) ∧
    (∀ doNull : Bool, ¬(doNull = true ∧ E.inCheck g = false ∧ 2 < depth) →
      alphaBeta E (f + 1) g depth alpha beta levels kt tt doNull =
        abMovesPhase E f g depth alpha beta levels kt tt doNull (E.inCheck g)) := by
  constructor
  · rintro ⟨hchk, hd⟩
    unfold alphaBeta abMovesPhase
    simp only [runSearch, if_neg hdepth, hprobe]
    rw [if_pos ⟨by trivial, hchk, hd⟩, show depth - 1 - 2 = depth - 3 from by omega, hlaw, hchk]
  · intro doNull hno
    unfold alphaBeta abMovesPhase
    simp only [runSearch, if_neg hdepth, hprobe]
    rw [if_neg hno]

/-- Witness for C8: the base engine at depth 3 takes the null-move
branch (score 0 below beta 7) and falls through to the move phase,
which answers with the draw score 0. -/
theorem c8_null_move_pruning_witness :
    alphaBeta baseEngine 4 0 3 (-4) 7 1 (ktNew 3) [] true = some (0, [], ktNew 3) ∧
    alphaBeta baseEngine 4 0 3 (-4) 7 1 (ktNew 3) [] false = some (0, [], ktNew 3) := by
  have h := c8_null_move_pruning baseEngine 0 3 (-4) 7 1 (ktNew 3) [] 3
    (by decide) rfl rfl
  exact ⟨(h.1 (by decide)).trans (by decide),
    (h.2 false (by decide)).trans (by decide)⟩

/-! ## Claim C9: quiescence and the transposition table -/

/-- The transposition table a request was entered with. -/
def SearchReq.ttOf {σ τ : Type} : SearchReq σ τ → τ
  | .ab _ _ _ _ _ _ tt _ => tt
  | .abMoves _ _ _ _ _ _ tt _ _ => tt
  | .abLoop _ _ _ _ _ _ _ _ _ _ _ tt _ _ _ => tt
  | .q _ _ _ _ _ tt => tt
  | .qLoop _ _ _ _ _ _ _ _ tt => tt

/-- The killer table a request was entered with. -/
def SearchReq.ktOf {σ τ : Type} : SearchReq σ τ → KillerTable
  | .ab _ _ _ _ _ kt _ _ => kt
  | .abMoves _ _ _ _ _ kt _ _ _ => kt
  | .abLoop _ _ _ _ _ _ _ _ _ _ kt _ _ _ _ => kt
  | .q _ _ _ _ kt _ => kt
  | .qLoop _ _ _ _ _ _ _ kt _ => kt

/-- The requests belonging to quiescence. -/
def SearchReq.isQuiescent {σ τ : Type} : SearchReq σ τ → Prop
  | .q _ _ _ _ _ _ => True
  | .qLoop _ _ _ _ _ _ _ _ _ => True
  | _ => False

set_option maxHeartbeats 2000000 in
/-- On an engine without checks, the quiescence requests neither store
into the transposition table nor touch the killer table. -/
theorem qReq_frame {σ τ : Type} (E : Engine σ τ) (hnc : ∀ g : σ, E.inCheck g = false) :
    ∀ (fuel : Nat) (req : SearchReq σ τ), req.isQuiescent →
      ∀ (v : Int) (tt2 : τ) (kt2 : KillerTable),
        runSearch E fuel req = some (v, tt2, kt2) → tt2 = req.ttOf ∧ kt2 = req.ktOf := by
  intro fuel
  induction fuel with
  | zero =>
    intro req _ v tt2 kt2 h
    simp only [runSearch] at h
    exact Option.noConfusion h
  | succ f ih =>
    intro req hq v tt2 kt2 h
    match req, hq with
    | .q g alpha beta levels kt tt, _ =>
      simp only [runSearch] at h
      rw [hnc g] at h
      simp only [SearchReq.ttOf, SearchReq.ktOf]
      split at h
      · obtain ⟨rfl, rfl, rfl⟩ : v = E.evalFn g levels ∧ tt2 = tt ∧ kt2 = kt := by
          simpa [Prod.ext_iff] using h.symm
        exact ⟨rfl, rfl⟩
      · simp only [Bool.false_eq_true, if_false] at h
        split at h
        · obtain ⟨rfl, rfl, rfl⟩ : v = E.evalFn g levels ∧ tt2 = tt ∧ kt2 = kt := by
            simpa [Prod.ext_iff] using h.symm
          exact ⟨rfl, rfl⟩
        · exact ih (.qLoop g beta levels (E.pseudoLegalLoudMoves g) _ 0 _ kt tt)
            trivial v tt2 kt2 h
    | .qLoop g beta levels mvs scores i alpha kt tt, _ =>
      simp only [runSearch] at h
      simp only [SearchReq.ttOf, SearchReq.ktOf]
      split at h
      · rcases hp : pick_move mvs scores i with ⟨mv, mvs1, scores1⟩
        rw [hp] at h
        simp only at h
        split at h
        · exact ih (.qLoop g beta levels mvs1 scores1 (i + 1) alpha kt tt) trivial
            v tt2 kt2 h
        · split at h
          · exact Option.noConfusion h
          · rename_i eval tt1 kt1 heq
            have hcont : tt1 = tt ∧ kt1 = kt := by
              split at heq
              · simp only [Option.some.injEq, Prod.mk.injEq] at heq
                exact ⟨heq.2.1.symm, heq.2.2.symm⟩
              · split at heq
                · exact Option.noConfusion heq
                · rename_i v1 tta kta hr
                  obtain ⟨h1, h2⟩ := ih (.q _ (-beta) (-alpha) (levels + 1) kt tt)
                    trivial v1 tta kta hr
                  simp only [SearchReq.ttOf, SearchReq.ktOf] at h1 h2
                  simp only [Option.some.injEq, Prod.mk.injEq] at heq
                  exact ⟨heq.2.1.symm.trans h1, heq.2.2.symm.trans h2⟩
            rw [hcont.1, hcont.2] at h
            split at h
            · simp only [Option.some.injEq, Prod.mk.injEq] at h
              exact ⟨h.2.1.symm, h.2.2.symm⟩
            · split at h
              · exact ih (.qLoop g beta levels mvs1 scores1 (i + 1) eval kt tt) trivial
                  v tt2 kt2 h
              · exact ih (.qLoop g beta levels mvs1 scores1 (i + 1) alpha kt tt) trivial
                  v tt2 kt2 h
      · simp only [Option.some.injEq, Prod.mk.injEq] at h
        exact ⟨h.2.1.symm, h.2.2.symm⟩


/-- C9 (amended): quiescence leaves the transposition table (and the
killer table) untouched PROVIDED no state it reaches is in check — on an
engine without checks every quiescence call is a frame for both tables.
The claim's unconditional form is false: when the side to move is in
check, quiescence delegates to `alpha_beta` at depth 1 (search.rs lines
494-504), whose tail stores an entry. -/
theorem c9_quiescence_tt_frame {σ τ : Type} (E : Engine σ τ)
    (hnc : ∀ g : σ, E.inCheck g = false) (fuel : Nat) (g : σ) (alpha beta : Int)
    (levels : Nat) (kt : KillerTable) (tt : τ) (v : Int) (tt2 : τ) (kt2 : KillerTable)
    (h : quiescence E fuel g alpha beta levels kt tt = some (v, tt2, kt2)) :
    tt2 = tt ∧ kt2 = kt :=
  qReq_frame E hnc fuel (.q g alpha beta levels kt tt) trivial v tt2 kt2 h

/-- Witness for C9's amended theorem: the base engine has no checks and
a quiescence call on it returns the entry tables unchanged. -/
theorem c9_quiescence_tt_frame_witness :
    ([] : ModelTT) = [] ∧ ktNew 3 = ktNew 3 :=
  c9_quiescence_tt_frame baseEngine (fun _ => rfl) 3 0 0 1 0 (ktNew 3) [] 0 [] (ktNew 3)
    (by decide)

/-! ## Claim C3: what can enter the killer table -/

/-- A move sits in one of the two killer slots of some ply. -/
def ktHasMove (kt : KillerTable) (mv : Move) : Prop :=
  ∃ pr ∈ kt, pr.1 = some mv ∨ pr.2 = some mv

/-- Every move of `kt2` was already in `kt` or carries no capture flag:
the growth the killer table can undergo during a search. -/
def ktMono (kt kt2 : KillerTable) : Prop :=
  ∀ mv, ktHasMove kt2 mv → ktHasMove kt mv ∨ Move.isCaptureMv mv = false

theorem ktMono_refl (kt : KillerTable) : ktMono kt kt := fun _ h => Or.inl h

theorem ktMono_trans {k1 k2 k3 : KillerTable} (h12 : ktMono k1 k2) (h23 : ktMono k2 k3) :
    ktMono k1 k3 := by
  intro mv h3
  rcases h23 mv h3 with h2 | hc
  · exact h12 mv h2
  · exact Or.inr hc

theorem ktInsert_mono {kt : KillerTable} {mv : Move} {ply : Nat}
    (hmv : Move.isCaptureMv mv = false) : ktMono kt (ktInsert kt mv ply) := by
  intro x hx
  unfold ktInsert at hx
  by_cases hs : (kt.getD ply (none, none)).1 = some mv
  · rw [if_pos hs] at hx
    exact Or.inl hx
  · rw [if_neg hs] at hx
    obtain ⟨pr, hpr, hor⟩ := hx
    rcases List.mem_or_eq_of_mem_set hpr with hmem | hEq
    · exact Or.inl ⟨pr, hmem, hor⟩
    · subst hEq
      rcases hor with h1 | h2
      · simp only [Option.some.injEq] at h1
        subst h1
        exact Or.inr hmv
      · simp only at h2
        by_cases hlt : ply < kt.length
        · exact Or.inl ⟨kt.getD ply (none, none), getD_mem_of_lt hlt, Or.inl h2⟩
        · rw [List.getD_eq_default kt (none, none) (by omega)] at h2
          exact Option.noConfusion h2

/-- Through every request, the killer table only gains capture-flag-free
moves, provided making a capture-flagged move always returns a captured
piece (`hcap`, the make-move contract of spec section 8): the insertion
at search.rs line 437 is guarded by `capture.is_none()` alone. -/
theorem runSearch_kt_mono {σ τ : Type} (E : Engine σ τ)
    (hcap : ∀ (g : σ) (mv : Move), Move.isCaptureMv mv = true → (E.makeMove g mv).2 ≠ none) :
    ∀ (fuel : Nat) (req : SearchReq σ τ) (v : Int) (tt2 : τ) (kt2 : KillerTable),
      runSearch E fuel req = some (v, tt2, kt2) → ktMono req.ktOf kt2 := by
  intro fuel
  induction fuel with
  | zero =>
    intro req v tt2 kt2 h
    simp only [runSearch] at h
    exact Option.noConfusion h
  | succ f ih =>
    intro req v tt2 kt2 h
    match req with
    | .ab g depth alpha beta levels kt tt doNull =>
      simp only [runSearch, SearchReq.ktOf] at h ⊢
      split at h
      · exact ih (.q g alpha beta levels kt tt) v tt2 kt2 h
      · split at h
        · rename_i tt_val heq
          simp only [Option.some.injEq, Prod.mk.injEq] at h
          obtain ⟨-, -, rfl⟩ := h
          exact ktMono_refl kt
        · split at h
          · split at h
            · exact Option.noConfusion h
            · rename_i v1 tt1 kt1 hr
              have m1 : ktMono kt kt1 :=
                ih (.ab (E.makeNullMove g) (depth - 1 - 2) (-beta) (-beta + 1)
                  (levels + 1) kt tt false) v1 tt1 kt1 hr
              split at h
              · simp only [Option.some.injEq, Prod.mk.injEq] at h
                obtain ⟨-, -, rfl⟩ := h
                exact m1
              · exact ktMono_trans m1
                  (ih (.abMoves _ depth alpha beta levels kt1 tt1 doNull (E.inCheck g))
                    v tt2 kt2 h)
          · exact ih (.abMoves g depth alpha beta levels kt tt doNull (E.inCheck g))
              v tt2 kt2 h
    | .abMoves g depth alpha beta levels kt tt doNull chk =>
      simp only [runSearch, SearchReq.ktOf] at h ⊢
      exact ih (.abLoop g depth beta levels doNull chk _ _ 0 alpha kt tt false false
        TtDetails.new) v tt2 kt2 h
    | .abLoop g depth beta levels doNull chk mvs scores i alpha kt tt foundPv legalAvail td =>
      simp only [runSearch, SearchReq.ktOf] at h ⊢
      split at h
      · rcases hp : pick_move mvs scores i with ⟨mv, mvs1, scores1⟩
        rw [hp] at h
        simp only at h
        split at h
        · exact ih (.abLoop g depth beta levels doNull chk mvs1 scores1 (i + 1) alpha kt tt
            foundPv legalAvail td) v tt2 kt2 h
        · split at h
          · exact Option.noConfusion h
          · rename_i eval tt1 kt1 heq
            have hm1 : ktMono kt kt1 := by
              split at heq
              · simp only [Option.some.injEq, Prod.mk.injEq] at heq
                rw [← heq.2.2]
                exact ktMono_refl kt
              · split at heq
                · split at heq
                  · exact Option.noConfusion heq
                  · rename_i v1 tta kta hr
                    have m := ih (.ab _ (depth - 1) (-beta) (-alpha) (levels + 1) kt tt
                      false) v1 tta kta hr
                    simp only [Option.some.injEq, Prod.mk.injEq] at heq
                    rw [← heq.2.2]
                    exact m
                · split at heq
                  · exact Option.noConfusion heq
                  · rename_i v1 tta kta hr
                    have m := ih (.ab _ (depth - 1) (-alpha - 1) (-alpha) (levels + 1)
                      kt tt (!doNull)) v1 tta kta hr
                    split at heq
                    · split at heq
                      · exact Option.noConfusion heq
                      · rename_i v2 ttb ktb hr2
                        have m2 := ih (.ab _ (depth - 1) (-beta) (-alpha) (levels + 1)
                          kta tta (!doNull)) v2 ttb ktb hr2
                        simp only [Option.some.injEq, Prod.mk.injEq] at heq
                        rw [← heq.2.2]
                        exact ktMono_trans m m2
                    · simp only [Option.some.injEq, Prod.mk.injEq] at heq
                      rw [← heq.2.2]
                      exact m
            split at h
            · simp only [Option.some.injEq, Prod.mk.injEq] at h
              obtain ⟨-, -, rfl⟩ := h
              by_cases hc : (E.makeMove g mv).2 = none
              · rw [if_pos hc]
                have hmv : Move.isCaptureMv mv = false := by
                  by_cases hb : Move.isCaptureMv mv = true
                  · exact absurd hc (hcap g mv hb)
                  · simpa using hb
                exact ktMono_trans hm1 (ktInsert_mono hmv)
              · rw [if_neg hc]
                exact hm1
            · split at h
              · exact ktMono_trans hm1 (ih (.abLoop g depth beta levels doNull chk mvs1
                  scores1 (i + 1) eval kt1 tt1 true true ⟨TtFlag.exact, some mv, eval⟩)
                  v tt2 kt2 h)
              · split at h
                · exact ktMono_trans hm1 (ih (.abLoop g depth beta levels doNull chk mvs1
                    scores1 (i + 1) alpha kt1 tt1 foundPv true
                    ⟨TtFlag.alpha, none, eval⟩) v tt2 kt2 h)
                · exact ktMono_trans hm1 (ih (.abLoop g depth beta levels doNull chk mvs1
                    scores1 (i + 1) alpha kt1 tt1 foundPv true td) v tt2 kt2 h)
      · split at h
        · simp only [Option.some.injEq, Prod.mk.injEq] at h
          obtain ⟨-, -, rfl⟩ := h
          exact ktMono_refl kt
        · split at h
          · simp only [Option.some.injEq, Prod.mk.injEq] at h
            obtain ⟨-, -, rfl⟩ := h
            exact ktMono_refl kt
          · simp only [Option.some.injEq, Prod.mk.injEq] at h
            obtain ⟨-, -, rfl⟩ := h
            exact ktMono_refl kt
    | .q g alpha beta levels kt tt =>
      simp only [runSearch, SearchReq.ktOf] at h ⊢
      split at h
      · simp only [Option.some.injEq, Prod.mk.injEq] at h
        obtain ⟨-, -, rfl⟩ := h
        exact ktMono_refl kt
      · split at h
        · exact ih (.ab g 1 alpha beta levels kt tt false) v tt2 kt2 h
        · split at h
          · simp only [Option.some.injEq, Prod.mk.injEq] at h
            obtain ⟨-, -, rfl⟩ := h
            exact ktMono_refl kt
          · exact ih (.qLoop g beta levels (E.pseudoLegalLoudMoves g) _ 0 _ kt tt)
              v tt2 kt2 h
    | .qLoop g beta levels mvs scores i alpha kt tt =>
      simp only [runSearch, SearchReq.ktOf] at h ⊢
      split at h
      · rcases hp : pick_move mvs scores i with ⟨mv, mvs1, scores1⟩
        rw [hp] at h
        simp only at h
        split at h
        · exact ih (.qLoop g beta levels mvs1 scores1 (i + 1) alpha kt tt) v tt2 kt2 h
        · split at h
          · exact Option.noConfusion h
          · rename_i eval tt1 kt1 heq
            have hm1 : ktMono kt kt1 := by
              split at heq
              · simp only [Option.some.injEq, Prod.mk.injEq] at heq
                rw [← heq.2.2]
                exact ktMono_refl kt
              · split at heq
                · exact Option.noConfusion heq
                · rename_i v1 tta kta hr
                  have m := ih (.q _ (-beta) (-alpha) (levels + 1) kt tt) v1 tta kta hr
                  simp only [Option.some.injEq, Prod.mk.injEq] at heq
                  rw [← heq.2.2]
                  exact m
            split at h
            · simp only [Option.some.injEq, Prod.mk.injEq] at h
              obtain ⟨-, -, rfl⟩ := h
              exact hm1
            · split at h
              · exact ktMono_trans hm1 (ih (.qLoop g beta levels mvs1 scores1 (i + 1)
                  eval kt1 tt1) v tt2 kt2 h)
              · exact ktMono_trans hm1 (ih (.qLoop g beta levels mvs1 scores1 (i + 1)
                  alpha kt1 tt1) v tt2 kt2 h)
      · simp only [Option.some.injEq, Prod.mk.injEq] at h
        obtain ⟨-, -, rfl⟩ := h
        exact ktMono_refl kt

/-- C3 (amended): only on a beta cutoff does `alpha_beta` insert a move
into the killer table, and the inserted move is one whose `capture` flag
is off — assuming the make-move contract that capture-flagged moves
return a captured piece.  The claim's stronger form, that no promotion is
ever inserted, is false: the guard at search.rs line 437 checks only
`capture.is_none()`, so non-capturing promotions do get inserted
(see the counterexample). -/
theorem c3_killer_moves_amended {σ τ : Type} (E : Engine σ τ)
    (hcap : ∀ (g : σ) (mv : Move), Move.isCaptureMv mv = true →
      (E.makeMove g mv).2 ≠ none)
    (fuel : Nat) (g : σ) (depth : Nat) (alpha beta : Int) (levels : Nat)
    (kt : KillerTable) (tt : τ) (doNull : Bool) (v : Int) (tt2 : τ) (kt2 : KillerTable)
    (h : alphaBeta E fuel g depth alpha beta levels kt tt doNull = some (v, tt2, kt2)) :
    ∀ mv, ktHasMove kt2 mv → ktHasMove kt mv ∨ Move.isCaptureMv mv = false :=
  runSearch_kt_mono E hcap fuel (.ab g depth alpha beta levels kt tt doNull) v tt2 kt2 h

/-- An engine obeying the make-move contract: a capture-flagged move
returns a captured piece; the single quiet move `kingMv1` produces a
beta cutoff through the drawn state 1. -/
def EngCapLaw : Engine Nat ModelTT :=
  { baseEngine with
    pseudoLegalMoves := fun g => if g == 0 then [kingMv1] else []
    makeMove := fun g mv => (if g == 0 then 1 else g,
      if Move.isCaptureMv mv then some ⟨Side.white, PieceType.pawn⟩ else none)
    isDraw := fun g => g == 1
    drawScore := fun g => if g == 1 then 100 else 0 }

/-- Witness for C3's amended theorem: after the cutoff run the killer
table holds `kingMv1`, and the theorem says it is old or capture-free
(here: capture-free). -/
theorem c3_killer_moves_amended_witness :
    ktHasMove [(none, none), (some kingMv1, none), (none, none)] kingMv1 ∧
    (ktHasMove (ktNew 3) kingMv1 ∨ Move.isCaptureMv kingMv1 = false) :=
  ⟨⟨(some kingMv1, none), by simp, Or.inl rfl⟩,
   c3_killer_moves_amended EngCapLaw
     (fun g mv hmv => by
       simp only [EngCapLaw, hmv, if_true]
       exact fun hc => Option.noConfusion hc)
     3 0 1 0 50 1 (ktNew 3) [] false 100 [⟨0, 1, TtFlag.beta, 100, some kingMv1⟩]
     [(none, none), (some kingMv1, none), (none, none)] rfl kingMv1
     ⟨(some kingMv1, none), by simp, Or.inl rfl⟩⟩

/-- C4 (amended): the source keys the principal-variation-search window
choice on `found_pv`, which records that some earlier move of this node
RAISED alpha — not that some earlier legal move was searched.  With
`alpha0` the alpha the loop started from, the source loop coincides with
the route that full-window-searches while `alpha = alpha0` and
zero-window-searches (re-searching on a score strictly inside the
window) once alpha has risen; the claim's "first legal move" route
differs (see the counterexample). -/
theorem c4_pvs_route_amended {σ τ : Type} (E : Engine σ τ) :
    ∀ (fuel : Nat) (g : σ) (depth : Nat) (beta : Int) (levels : Nat) (doNull chk : Bool)
      (mvs : List Move) (scores : List Nat) (i : Nat) (alpha0 alpha : Int)
      (kt : KillerTable) (tt : τ) (foundPv legalAvail : Bool) (td : TtDetails),
      alpha0 ≤ alpha → foundPv = decide (alpha0 < alpha) →
      abLoopPhase E fuel g depth beta levels doNull chk mvs scores i alpha kt tt foundPv
        legalAvail td =
      abLoopRoute E fuel g depth beta levels doNull chk mvs scores i alpha0 alpha kt tt
        legalAvail td := by
  intro fuel
  induction fuel with
  | zero =>
    intro g depth beta levels doNull chk mvs scores i alpha0 alpha kt tt foundPv
      legalAvail td hle hfp
    rfl
  | succ f ih =>
    intro g depth beta levels doNull chk mvs scores i alpha0 alpha kt tt foundPv
      legalAvail td hle hfp
    simp only [abLoopPhase, abLoopRoute, runSearch]
    by_cases hi : i < mvs.length
    · rw [if_pos hi, if_pos hi]
      rcases hp : pick_move mvs scores i with ⟨mv, mvs1, scores1⟩
      simp only
      by_cases hleg : E.isLegal g mv = false
      · rw [if_pos hleg, if_pos hleg]
        exact ih g depth beta levels doNull chk mvs1 scores1 (i + 1) alpha0 alpha kt tt
          foundPv legalAvail td hle hfp
      · rw [if_neg hleg, if_neg hleg]
        by_cases hpv : foundPv = false
        · subst hpv
          have halpha : alpha = alpha0 := by
            have hnot : ¬(alpha0 < alpha) := of_decide_eq_false hfp.symm
            omega
          rw [if_pos (show (false = false) from rfl), if_pos halpha]
          split
          · rfl
          · rename_i eval tt1 kt1 hev
            by_cases hb : eval ≥ beta
            · rw [if_pos hb, if_pos hb]
            · rw [if_neg hb, if_neg hb]
              by_cases ha : eval > alpha
              · rw [if_pos ha, if_pos ha]
                exact ih g depth beta levels doNull chk mvs1 scores1 (i + 1) alpha0 eval
                  kt1 tt1 true true ⟨TtFlag.exact, some mv, eval⟩ (by omega)
                  (decide_eq_true (by omega)).symm
              · rw [if_neg ha, if_neg ha]
                by_cases ht : eval > td.eval
                · rw [if_pos ht, if_pos ht]
                  exact ih g depth beta levels doNull chk mvs1 scores1 (i + 1) alpha0
                    alpha kt1 tt1 false true ⟨TtFlag.alpha, none, eval⟩ hle hfp
                · rw [if_neg ht, if_neg ht]
                  exact ih g depth beta levels doNull chk mvs1 scores1 (i + 1) alpha0
                    alpha kt1 tt1 false true td hle hfp
        · have hpv1 : foundPv = true := by
            revert hpv
            cases foundPv <;> simp
          subst hpv1
          have hlt : alpha0 < alpha := of_decide_eq_true hfp.symm
          have hne : ¬(alpha = alpha0) := by omega
          rw [if_neg (show ¬(true = false) from by decide), if_neg hne]
          split
          · rfl
          · rename_i eval tt1 kt1 hev
            by_cases hb : eval ≥ beta
            · rw [if_pos hb, if_pos hb]
            · rw [if_neg hb, if_neg hb]
              by_cases ha : eval > alpha
              · rw [if_pos ha, if_pos ha]
                exact ih g depth beta levels doNull chk mvs1 scores1 (i + 1) alpha0 eval
                  kt1 tt1 true true ⟨TtFlag.exact, some mv, eval⟩ (by omega)
                  (decide_eq_true (by omega)).symm
              · rw [if_neg ha, if_neg ha]
                by_cases ht : eval > td.eval
                · rw [if_pos ht, if_pos ht]
                  exact ih g depth beta levels doNull chk mvs1 scores1 (i + 1) alpha0
                    alpha kt1 tt1 true true ⟨TtFlag.alpha, none, eval⟩ hle hfp
                · rw [if_neg ht, if_neg ht]
                  exact ih g depth beta levels doNull chk mvs1 scores1 (i + 1) alpha0
                    alpha kt1 tt1 true true td hle hfp
    · rw [if_neg hi, if_neg hi]

/-- Witness for C4's amended theorem: at the counterexample node the
source loop and the alpha-raise route agree (both return 5). -/
theorem c4_pvs_route_amended_witness :
    abLoopPhase EngC4 9 0 2 10 1 false false [kingMv1, kingMv2] [0, 0] 0 0 (ktNew 3) []
      false false TtDetails.new =
    abLoopRoute EngC4 9 0 2 10 1 false false [kingMv1, kingMv2] [0, 0] 0 0 0 (ktNew 3) []
      false TtDetails.new :=
  c4_pvs_route_amended EngC4 9 0 2 10 1 false false [kingMv1, kingMv2] [0, 0] 0 0 0
    (ktNew 3) [] false false TtDetails.new (by decide) (by decide)

end RustEngine
